import Mathlib

/-!
Verification of the freerware/negotiator HTTP content-negotiation library.

This development is a shallow embedding of the library's Go source into Lean.
Go `float32` quality arithmetic is modelled with exact fractions (`Frac`); Go
slices become lists; Go's two-value `(T, error)` returns become `Except GoErr T`.
Where the source calls into the Go standard library (`mime`, `strconv`,
`strings`, `sort`) the corresponding definition here models the documented
behaviour of that standard-library function on the input fragment the library
exercises; each such definition says so in its doc comment.
-/

set_option maxHeartbeats 1000000

/-- Error values surfaced by the negotiator core.  Each constructor stands for
one distinct Go error (or runtime panic) that the embedded code can produce. -/
inductive GoErr where
  /-- `ErrEmptyMediaRange` -/
  | emptyMediaRange
  /-- an error returned by `mime.ParseMediaType` -/
  | invalidMediaType
  /-- an error returned by `strconv.ParseFloat` / `strconv.ParseInt` -/
  | numberParse
  /-- `ErrInvalidQualityValue` -/
  | invalidQualityValue
  /-- `ErrEmptyCharsetRange` -/
  | emptyCharsetRange
  /-- `ErrInvalidCharsetRange` -/
  | invalidCharsetRange
  /-- `ErrEmptyContentCodingRange` -/
  | emptyContentCodingRange
  /-- `ErrInvalidContentCodingRange` -/
  | invalidContentCodingRange
  /-- `ErrEmptyLanguageRange` -/
  | emptyLanguageRange
  /-- an error returned by `golang.org/x/text/language.Parse` -/
  | languageParse
  /-- `ErrEmptyNegotiateDirective` -/
  | emptyNegotiateDirective
  /-- `ErrInvalidPredicate` -/
  | invalidPredicate
  /-- `ErrInvalidPredicateBag` -/
  | invalidPredicateBag
  /-- `ErrInvalidPredicateListElement` -/
  | invalidPredicateListElement
  /-- an error produced by a representation's `Bytes`/`FromBytes` -/
  | bytesFailure
  /-- `ErrVariantListSizeExceeded` -/
  | variantListSizeExceeded
  /-- Go runtime panic from indexing an empty slice (`Set.First`, `reps[0]`) -/
  | indexOutOfRange
  /-- the `panic(err)` in `rvsa1.acceptFeatureQuality` on a feature-list
  parse failure -/
  | featureParsePanic
deriving DecidableEq, Repr

/-! ## Quality values

`header.QualityValue` is a Go `float32`.  We model it with exact rational
arithmetic.  (Mathlib's `ℚ` normalises through `Nat.gcd`, which does not
reduce in the kernel, so we use an explicit fraction representation with no
implicit normalisation instead: every operation on it evaluates by
`decide`.)  All the concrete quality values the library manipulates are
short decimal fractions, on which `float32` arithmetic agrees with exact
arithmetic at the three- and five-decimal rounding granularity the library
uses. -/

/-- An exact, unnormalised fraction `num / den`.  Every constructor in this
development produces a positive denominator, and the order relations below
read the fraction as `num / den` under that convention. -/
structure Frac where
  num : ℤ
  den : ℤ
deriving DecidableEq, Repr

instance (n : ℕ) : OfNat Frac n := ⟨⟨n, 1⟩⟩

instance : Mul Frac := ⟨fun a b => ⟨a.num * b.num, a.den * b.den⟩⟩

instance : Add Frac := ⟨fun a b => ⟨a.num * b.den + b.num * a.den, a.den * b.den⟩⟩

instance : Neg Frac := ⟨fun a => ⟨-a.num, a.den⟩⟩

instance : LT Frac := ⟨fun a b => a.num * b.den < b.num * a.den⟩

instance : LE Frac := ⟨fun a b => a.num * b.den ≤ b.num * a.den⟩

instance (a b : Frac) : Decidable (a < b) :=
  inferInstanceAs (Decidable (a.num * b.den < b.num * a.den))

instance (a b : Frac) : Decidable (a ≤ b) :=
  inferInstanceAs (Decidable (a.num * b.den ≤ b.num * a.den))

/-- Value equality of fractions — Go's `float` `==` on the modelled
values. -/
def Frac.veq (a b : Frac) : Bool := a.num * b.den == b.num * a.den

/-- Model of Go `math.Round` on a fraction with positive denominator: round
half away from zero, as an integer. -/
def roundHalfAway (x : Frac) : ℤ :=
  if 0 ≤ x.num then (2 * x.num + x.den).ediv (2 * x.den)
  else -((2 * (-x.num) + x.den).ediv (2 * x.den))

/-- Model of `QualityValue.Round` from `quality_value.go`: if `scale < 1`,
round the value itself; otherwise round `qv · 10^scale` and divide back. -/
def qvRound (scale : ℤ) (q : Frac) : Frac :=
  if scale < 1 then ⟨roundHalfAway q, 1⟩
  else ⟨roundHalfAway (q * ⟨(10 : ℤ) ^ scale.toNat, 1⟩), (10 : ℤ) ^ scale.toNat⟩

/-- `QualityValue.Equals`: equality of the two values rounded to three
fractional digits (both roundings share the denominator `1000`, so float
equality of the rounded values is equality of the rounded integers). -/
def qvEquals (a b : Frac) : Bool := qvRound 3 a == qvRound 3 b

/-- `QualityValue.GreaterThan`: comparison of three-decimal roundings. -/
def qvGreaterThan (a b : Frac) : Bool := decide (qvRound 3 b < qvRound 3 a)

/-- `QualityValue.LessThan`: comparison of three-decimal roundings. -/
def qvLessThan (a b : Frac) : Bool := decide (qvRound 3 a < qvRound 3 b)

/-- `QualityValue.Multiply` is plain multiplication. -/
def qvMultiply (a b : Frac) : Frac := a * b

/-- `NewQualityValue`: validate that the number lies in `[0, 1]`. -/
def newQualityValue (q : Frac) : Except GoErr Frac :=
  if q < 0 ∨ 1 < q then .error .invalidQualityValue else .ok q

/-! ## The sort model

Every container sort in the library goes through Go's `sort.Slice`.  The
module declares `go 1.12`; in the Go toolchains contemporary with this code
(1.12 through 1.18), `sort.Slice` on a slice of at most 12 elements runs a
single Shell-sort pass with gap 6 followed by an insertion sort.  We model
exactly that pipeline.  (For more than 12 elements Go first quicksorts; no
theorem below about concrete sorted output is applied beyond 12 elements, and
the universally quantified theorems below use only the fact that the output is
a permutation of the input, which holds for any sorting algorithm.) -/

/-- One sift-down step of Go's insertion sort, acting on the already-sorted
prefix stored in reverse: the new element `x` moves past every element `y`
with `less x y` and is placed before the first element that is not greater. -/
def goInsertStep (less : α → α → Bool) (x : α) : List α → List α
  | [] => [x]
  | y :: ys => if less x y then y :: goInsertStep less x ys else x :: y :: ys

/-- Model of Go's `insertionSort`: fold the input through `goInsertStep`,
keeping the sorted prefix reversed, and reverse at the end.  This is
extensionally the swap-down insertion sort of Go's `sort` package. -/
def goInsertionSort (less : α → α → Bool) (l : List α) : List α :=
  (l.foldl (fun racc x => goInsertStep less x racc) []).reverse

/-- Positionally compare the two halves of a slice split at index 6 and swap
each pair `(a[k], a[k+6])` with `less a[k+6] a[k]`.  For slices of at most 12
elements these pairs are disjoint, so the sequential Shell pass of Go's
quicksort coincides with this parallel description. -/
def goShellSwaps (less : α → α → Bool) : List α → List α → List α × List α
  | [], ys => ([], ys)
  | xs, [] => (xs, [])
  | x :: xs, y :: ys =>
      let r := goShellSwaps less xs ys
      if less y x then (y :: r.1, x :: r.2) else (x :: r.1, y :: r.2)

/-- Model of the gap-6 Shell-sort pass Go's `quickSort` performs on short
slices before its insertion sort. -/
def goShellPass (less : α → α → Bool) (l : List α) : List α :=
  let r := goShellSwaps less (l.take 6) (l.drop 6)
  r.1 ++ r.2

/-- Model of Go `sort.Slice` (Go 1.12–1.18) on slices of at most 12 elements:
the gap-6 Shell pass followed by insertion sort. -/
def goSortSlice (less : α → α → Bool) (l : List α) : List α :=
  goInsertionSort less (goShellPass less l)

theorem goInsertStep_perm (less : α → α → Bool) (x : α) (l : List α) :
    List.Perm (goInsertStep less x l) (x :: l) := by
  induction l with
  | nil => simp [goInsertStep]
  | cons y ys ih =>
      by_cases h : less x y
      · simpa [goInsertStep, h] using ((ih.cons y).trans (List.Perm.swap x y ys))
      · simp [goInsertStep, h]

theorem goInsertionSort_fold_perm (less : α → α → Bool) (l racc : List α) :
    List.Perm (l.foldl (fun racc x => goInsertStep less x racc) racc) (l ++ racc) := by
  induction l generalizing racc with
  | nil => simp
  | cons x xs ih =>
      have h1 : (x :: xs).foldl (fun racc x => goInsertStep less x racc) racc
          = xs.foldl (fun racc x => goInsertStep less x racc)
              (goInsertStep less x racc) := by simp [List.foldl]
      rw [h1]
      have h3 : List.Perm (xs ++ goInsertStep less x racc) (xs ++ (x :: racc)) :=
        (goInsertStep_perm less x racc).append_left xs
      exact (ih _).trans (h3.trans List.perm_middle)

theorem goInsertionSort_perm (less : α → α → Bool) (l : List α) :
    List.Perm (goInsertionSort less l) l := by
  have h := goInsertionSort_fold_perm less l []
  simpa [goInsertionSort] using (List.reverse_perm _).trans h

theorem goShellSwaps_perm (less : α → α → Bool) :
    ∀ xs ys : List α,
      List.Perm ((goShellSwaps less xs ys).1 ++ (goShellSwaps less xs ys).2) (xs ++ ys) := by
  intro xs
  induction xs with
  | nil => intro ys; simp [goShellSwaps]
  | cons x xs ih =>
      intro ys
      cases ys with
      | nil => simp [goShellSwaps]
      | cons y ys =>
          have ihp := ih ys
          by_cases h : less y x
          · simp only [goShellSwaps, h, if_true]
            have a1 : List.Perm
                ((goShellSwaps less xs ys).1 ++ x :: (goShellSwaps less xs ys).2)
                (x :: ((goShellSwaps less xs ys).1 ++ (goShellSwaps less xs ys).2)) :=
              List.perm_middle
            have a2 := ((a1.trans (ihp.cons x)).cons y).trans (List.Perm.swap x y _)
            exact a2.trans ((List.perm_middle.symm).cons x)
          · simp only [goShellSwaps, h, if_false, Bool.false_eq_true]
            have a1 : List.Perm
                ((goShellSwaps less xs ys).1 ++ y :: (goShellSwaps less xs ys).2)
                (y :: ((goShellSwaps less xs ys).1 ++ (goShellSwaps less xs ys).2)) :=
              List.perm_middle
            have a2 := ((a1.trans (ihp.cons y)).cons x)
            exact a2.trans ((List.perm_middle.symm).cons x)

theorem goShellPass_perm (less : α → α → Bool) (l : List α) :
    List.Perm (goShellPass less l) l := by
  have h := goShellSwaps_perm less (l.take 6) (l.drop 6)
  simpa [goShellPass] using h

theorem goSortSlice_perm (less : α → α → Bool) (l : List α) :
    List.Perm (goSortSlice less l) l := by
  exact (goInsertionSort_perm less _).trans (goShellPass_perm less l)

theorem goSortSlice_length (less : α → α → Bool) (l : List α) :
    (goSortSlice less l).length = l.length :=
  (goSortSlice_perm less l).length_eq

theorem goSortSlice_ne_nil (less : α → α → Bool) (l : List α) (h : l ≠ []) :
    goSortSlice less l ≠ [] := by
  intro hc
  have hl := goSortSlice_length less l
  rw [hc] at hl
  exact h (List.length_eq_zero.mp hl.symm)

/-! Sortedness of the sort model.  Go's `sort.Slice` contract promises only
that the final slice is ordered so that `less a[j] a[i]` fails for `i < j`.
We prove that for any comparator that is asymmetric and negatively
transitive (every strict weak order, in particular every comparator the
library passes to `sort.Slice`), the model delivers exactly that. -/

theorem goInsertStep_mem {less : α → α → Bool} {x z : α} {l : List α}
    (h : z ∈ goInsertStep less x l) : z = x ∨ z ∈ l :=
  by simpa using (goInsertStep_perm less x l).mem_iff.mp h

theorem goInsertStep_pairwise {less : α → α → Bool}
    (hasym : ∀ a b, less a b = true → less b a = false)
    (hneg : ∀ a b c, less a c = true → less a b = true ∨ less b c = true)
    {x : α} {l : List α} (h : l.Pairwise (fun a b => less a b = false)) :
    (goInsertStep less x l).Pairwise (fun a b => less a b = false) := by
  induction l with
  | nil => simp [goInsertStep]
  | cons y ys ih =>
      rcases List.pairwise_cons.mp h with ⟨hy, hys⟩
      by_cases hxy : less x y
      · simp only [goInsertStep, hxy, if_true]
        refine List.pairwise_cons.mpr ⟨?_, ih hys⟩
        intro z hz
        rcases goInsertStep_mem hz with hzx | hz
        · rw [hzx]; exact hasym x y hxy
        · exact hy z hz
      · simp only [goInsertStep, hxy, if_false, Bool.false_eq_true]
        refine List.pairwise_cons.mpr ⟨?_, h⟩
        intro z hz
        rcases List.mem_cons.mp hz with rfl | hz
        · exact Bool.eq_false_iff.mpr hxy
        · by_contra hxz
          have hxz' : less x z = true := by
            revert hxz
            cases less x z <;> simp
          rcases hneg x y z hxz' with h1 | h2
          · exact hxy h1
          · rw [hy z hz] at h2
            exact Bool.false_ne_true h2

theorem goInsertionSort_fold_pairwise {less : α → α → Bool}
    (hasym : ∀ a b, less a b = true → less b a = false)
    (hneg : ∀ a b c, less a c = true → less a b = true ∨ less b c = true)
    (l : List α) {racc : List α}
    (h : racc.Pairwise (fun a b => less a b = false)) :
    (l.foldl (fun racc x => goInsertStep less x racc) racc).Pairwise
      (fun a b => less a b = false) := by
  induction l generalizing racc with
  | nil => simpa using h
  | cons x xs ih =>
      simpa [List.foldl] using ih (goInsertStep_pairwise hasym hneg h)

/-- The output of the `sort.Slice` model is ordered for the comparator: no
later element is `less` than an earlier one. -/
theorem goSortSlice_pairwise {less : α → α → Bool}
    (hasym : ∀ a b, less a b = true → less b a = false)
    (hneg : ∀ a b c, less a c = true → less a b = true ∨ less b c = true)
    (l : List α) :
    (goSortSlice less l).Pairwise (fun a b => less b a = false) := by
  have h := goInsertionSort_fold_pairwise hasym hneg (goShellPass less l)
    List.Pairwise.nil
  unfold goSortSlice goInsertionSort
  exact (List.pairwise_reverse).mpr (by simpa using h)

/-- The first element of a sorted nonempty output is maximal: the comparator
holds for no later element against it. -/
theorem goSortSlice_head_max {less : α → α → Bool}
    (hasym : ∀ a b, less a b = true → less b a = false)
    (hneg : ∀ a b c, less a c = true → less a b = true ∨ less b c = true)
    {l v : _} {rest : List α} (h : goSortSlice less l = v :: rest) :
    ∀ w ∈ rest, less w v = false := by
  have hp := goSortSlice_pairwise hasym hneg l
  rw [h] at hp
  exact fun w hw => (List.pairwise_cons.mp hp).1 w hw

/-! ## String helpers

Models of the Go standard-library string functions the negotiator uses.  The
library processes HTTP header values and media types, which are ASCII; the
models below implement the ASCII behaviour of the corresponding Go functions
(documented per definition). -/

/-- Model of `strings.ToLower` on ASCII input. -/
def lowerStr (s : String) : String := String.mk (s.data.map Char.toLower)

/-- Model of `strings.HasPrefix`. -/
def startsWithStr (s p : String) : Bool := p.data.isPrefixOf s.data

/-- Model of `strings.HasSuffix`. -/
def endsWithStr (s p : String) : Bool := p.data.reverse.isPrefixOf s.data.reverse

/-- The character class of `\s` in Go's `regexp`: `[\t\n\f\r ]`. -/
def isRegexSpace (c : Char) : Bool :=
  c = '\t' || c = '\n' || c = '\x0c' || c = '\r' || c = ' '

/-- Model of `unicode.IsSpace` on ASCII input. -/
def isGoSpace (c : Char) : Bool := isRegexSpace c || c = '\x0b'

/-- Model of `strings.TrimSpace` on ASCII input. -/
def trimSpace (s : String) : String :=
  String.mk (((s.data.dropWhile isGoSpace).reverse.dropWhile isGoSpace).reverse)

/-- Model of `strings.TrimLeft`-by-whitespace (`strings.TrimLeftFunc` with
`unicode.IsSpace`) on ASCII input. -/
def trimLeftSpace (s : String) : String :=
  String.mk (s.data.dropWhile isGoSpace)

/-- Model of `strings.Trim` with a single-character cutset: remove every
leading and trailing occurrence of `c`. -/
def trimChar (s : String) (c : Char) : String :=
  String.mk (((s.data.dropWhile (· = c)).reverse.dropWhile (· = c)).reverse)

/-- Model of `strings.TrimLeft` with a single-character cutset. -/
def trimLeftChar (s : String) (c : Char) : String :=
  String.mk (s.data.dropWhile (· = c))

/-- Model of `strings.TrimRight` with a single-character cutset. -/
def trimRightChar (s : String) (c : Char) : String :=
  String.mk ((s.data.reverse.dropWhile (· = c)).reverse)

/-- Model of `strings.TrimPrefix`: drop one occurrence of the prefix. -/
def trimPrefixStr (s p : String) : String :=
  if startsWithStr s p then String.mk (s.data.drop p.data.length) else s

/-- Model of `strings.TrimSuffix`: drop one occurrence of the suffix. -/
def trimSuffixStr (s p : String) : String :=
  if endsWithStr s p then String.mk (s.data.take (s.data.length - p.data.length))
  else s

/-- Model of `strings.Count` for a single-character substring. -/
def countChar (s : String) (c : Char) : Nat := s.data.count c

/-- The index of the last occurrence of `c` in the character list, or `-1`. -/
def lastIndexAux (cs : List Char) (c : Char) (i : ℤ) (acc : ℤ) : ℤ :=
  match cs with
  | [] => acc
  | d :: ds => lastIndexAux ds c (i + 1) (if d = c then i else acc)

/-- Model of `strings.LastIndex` for a single-character substring on ASCII
input (for ASCII, Go's byte index equals the character index). -/
def lastIndexChar (s : String) (c : Char) : ℤ := lastIndexAux s.data c 0 (-1)

/-- Digit run to number: `digitsToNat ['1','2','3'] = 123`. -/
def digitsToNat (l : List Char) : Nat :=
  l.foldl (fun n c => 10 * n + (c.toNat - 48)) 0

/-- `\w` of Go's `regexp`: ASCII letters, digits, and underscore. -/
def isWordChar (c : Char) : Bool := c.isAlphanum || c = '_'

/-- The `[A-Za-z0-9-]` class of the charset/content-coding range regexes. -/
def isAlnumDash (c : Char) : Bool := c.isAlphanum || c = '-'

/-- Model of Go `mime`'s `isTokenChar`: printable ASCII except tspecials. -/
def isTokenCharGo (c : Char) : Bool :=
  0x20 < c.toNat && c.toNat < 0x7f &&
    !(['(', ')', '<', '>', '@', ',', ';', ':', '\\', '\"', '/',
       '[', ']', '?', '='].contains c)

/-- Model of `strconv.ParseFloat` on the fragment the library feeds it:
plain decimal numbers with an optional sign and at most one decimal point
(no exponents, hex floats, `Inf`/`NaN`, or digit-separating underscores,
which never appear in the exercised inputs).  The value is exact. -/
def goParseFloat (s : String) : Option Frac :=
  let signed : ℤ × List Char :=
    match s.data with
    | '+' :: t => (1, t)
    | '-' :: t => (-1, t)
    | t => (1, t)
  let ip := signed.2.takeWhile Char.isDigit
  let rest := signed.2.drop ip.length
  match rest with
  | [] => if ip.isEmpty then none else some ⟨signed.1 * digitsToNat ip, 1⟩
  | '.' :: fr =>
      if fr.all Char.isDigit ∧ (ip ≠ [] ∨ fr ≠ []) then
        some ((⟨signed.1, 1⟩ : Frac) *
          ((⟨(digitsToNat ip : ℤ), 1⟩ : Frac) +
            ⟨(digitsToNat fr : ℤ), (10 : ℤ) ^ fr.length⟩))
      else none
  | _ => none

/-- Model of `strconv.Atoi` on plain decimal input: optional sign then
digits.  (Overflow of 64-bit ints is outside the exercised fragment.) -/
def goAtoi (s : String) : Option ℤ :=
  let signed : ℤ × List Char :=
    match s.data with
    | '+' :: t => (1, t)
    | '-' :: t => (-1, t)
    | t => (1, t)
  if signed.2 ≠ [] ∧ signed.2.all Char.isDigit then
    some (signed.1 * digitsToNat signed.2)
  else none

/-- Hexadecimal digit value, if any. -/
def hexVal (c : Char) : Option Nat :=
  if c.isDigit then some (c.toNat - 48)
  else if 'a' ≤ c ∧ c ≤ 'f' then some (c.toNat - 87)
  else if 'A' ≤ c ∧ c ≤ 'F' then some (c.toNat - 55)
  else none

/-- Digit run in an arbitrary base `b ≤ 16`. -/
def digitsToNatBase (b : Nat) (l : List Char) : Option Nat :=
  l.foldl
    (fun acc c =>
      match acc, hexVal c with
      | some n, some d => if d < b then some (b * n + d) else none
      | _, _ => none)
    (some 0)

/-- Model of `strconv.ParseInt(s, 0, 32)`: optional sign, then a base prefix
(`0x` hex, `0b` binary, `0o` octal, a bare leading `0` octal) or decimal
digits, range-checked against `int32`.  (Digit-separating underscores are
outside the exercised fragment.) -/
def goParseIntBase0Size32 (s : String) : Option ℤ :=
  let signed : ℤ × List Char :=
    match s.data with
    | '+' :: t => (1, t)
    | '-' :: t => (-1, t)
    | t => (1, t)
  let parsed : Option Nat :=
    match signed.2 with
    | '0' :: 'x' :: t => if t ≠ [] then digitsToNatBase 16 t else none
    | '0' :: 'X' :: t => if t ≠ [] then digitsToNatBase 16 t else none
    | '0' :: 'b' :: t => if t ≠ [] then digitsToNatBase 2 t else none
    | '0' :: 'B' :: t => if t ≠ [] then digitsToNatBase 2 t else none
    | '0' :: 'o' :: t => if t ≠ [] then digitsToNatBase 8 t else none
    | '0' :: 'O' :: t => if t ≠ [] then digitsToNatBase 8 t else none
    | '0' :: t => if t = [] then some 0 else digitsToNatBase 8 t
    | t => if t ≠ [] then digitsToNatBase 10 t else none
  match parsed with
  | none => none
  | some n =>
      let v := signed.1 * (n : ℤ)
      if -(2 ^ 31) ≤ v ∧ v ≤ 2 ^ 31 - 1 then some v else none

/-- Round half to even (on a fraction with positive denominator), as
`fmt`'s decimal formatting does at the last printed digit. -/
def roundHalfEven (x : Frac) : ℤ :=
  let f := x.num.ediv x.den
  let r2 := x.num - f * x.den
  if 2 * r2 < x.den then f
  else if x.den < 2 * r2 then f + 1
  else if f.emod 2 = 0 then f else f + 1

/-- A single decimal digit character. -/
def digitCh (n : Nat) : Char := Char.ofNat (48 + n % 10)

/-- Model of `fmt.Sprintf("%.3f", q)` for the quality-value domain (values in
`[0, 10)`, so a single integer digit): three fractional digits, rounding half
to even.  All values the library formats are exact multiples of `1/1000`, so
no rounding actually occurs. -/
def fmtQ3 (q : Frac) : String :=
  let n := (roundHalfEven (q * ⟨1000, 1⟩)).toNat
  String.mk [digitCh (n / 1000), '.', digitCh (n / 100), digitCh (n / 10), digitCh n]

/-! ## Media types: model of `mime.ParseMediaType`

The library's `parse` helper (media_range.go) delegates to Go's
`mime.ParseMediaType`.  The model below implements that function on the
token-grammar fragment the library exercises: a `token [ "/" token ]` media
type followed by `;`-separated `key=value` parameters whose values are tokens
or quoted strings without escapes (RFC 2231 continuations, `%`-encodings and
escaped quotes never appear in the exercised inputs). -/

/-- Split a character list on every occurrence of a separator character,
like `strings.Split` with a one-character separator. -/
def splitOnChar (c : Char) : List Char → List (List Char)
  | [] => [[]]
  | d :: ds =>
      if d = c then [] :: splitOnChar c ds
      else
        match splitOnChar c ds with
        | [] => [[d]]
        | h :: t => (d :: h) :: t

/-- Split a character list on every occurrence of the two-character
separator `!=`, like `strings.Split` with separator `"!="`. -/
def splitOnNE : List Char → List (List Char)
  | [] => [[]]
  | '!' :: '=' :: cs => [] :: splitOnNE cs
  | c :: cs =>
      match splitOnNE cs with
      | [] => [[c]]
      | h :: t => (c :: h) :: t

/-- Model of `mime`'s `checkMediaTypeDisposition`: a nonempty token,
optionally followed by `/` and another nonempty token. -/
def checkMediaTypeGo (mt : List Char) : Bool :=
  let major := mt.takeWhile isTokenCharGo
  let rest := mt.drop major.length
  if major.isEmpty then false
  else
    match rest with
    | [] => true
    | '/' :: minor => !minor.isEmpty && minor.all isTokenCharGo
    | _ => false

/-- Parse one parameter segment (the text strictly between two `;`):
optional leading whitespace, a token key (lowercased), `=`, then a token or
quoted-string value, then optional trailing whitespace. -/
def parseParamSeg (seg : List Char) : Option (String × String) :=
  let s1 := seg.dropWhile isGoSpace
  let key := s1.takeWhile isTokenCharGo
  let r1 := s1.drop key.length
  if key.isEmpty then none
  else
    match r1 with
    | '=' :: r2 =>
        (match r2 with
         | '\"' :: r3 =>
             let v := r3.takeWhile (· ≠ '\"')
             let r4 := r3.drop v.length
             (match r4 with
              | '\"' :: r5 =>
                  if r5.all isGoSpace then
                    some (lowerStr (String.mk key), String.mk v)
                  else none
              | _ => none)
         | _ =>
             let v := r2.takeWhile isTokenCharGo
             let r3 := r2.drop v.length
             if v.isEmpty then none
             else if r3.all isGoSpace then
               some (lowerStr (String.mk key), String.mk v)
             else none)
    | _ => none

/-- Fold the parameter segments, rejecting duplicate keys as
`mime.ParseMediaType` does.  A whitespace-only segment is tolerated only in
trailing position (Go's single-trailing-semicolon tolerance). -/
def parseParamSegs : List (List Char) → List (String × String) →
    Option (List (String × String))
  | [], acc => some acc
  | seg :: rest, acc =>
      if seg.all isGoSpace then
        if rest.isEmpty then some acc else none
      else
        match parseParamSeg seg with
        | none => none
        | some kv =>
            if (acc.map Prod.fst).contains kv.1 then none
            else parseParamSegs rest (acc ++ [kv])

/-- Model of `mime.ParseMediaType` on the fragment described above: the
lowercased, whitespace-trimmed media type and its parameter map. -/
def goParseMediaType (v : String) : Option (String × List (String × String)) :=
  match splitOnChar ';' v.data with
  | [] => none
  | base :: segs =>
      let mt := lowerStr (trimSpace (String.mk base))
      if checkMediaTypeGo mt.data then
        match parseParamSegs segs [] with
        | none => none
        | some ps => some (mt, ps)
      else none

/-- Model of the repo's `parse` (media_range.go): `mime.ParseMediaType`, then
split the media type on `/` into type and subtype. -/
def parseTypeSubtype (m : String) :
    Except GoErr (String × String × List (String × String)) :=
  match goParseMediaType m with
  | none => .error .invalidMediaType
  | some (mt, params) =>
      let parts := splitOnChar '/' mt.data
      .ok (String.mk (parts.headD []), String.mk ((parts.drop 1).headD []),
        params)

/-! ## MediaRange (media_range.go) -/

/-- `header.MediaRange`: type, subtype, parameter map (including `q` when
present — `parseMediaRange` never removes it), and the quality value. -/
structure MediaRange where
  t : String
  subT : String
  params : List (String × String)
  qValue : Frac
deriving DecidableEq, Repr

/-- Model of `parseMediaRange`. -/
def parseMediaRange (m : String) : Except GoErr MediaRange :=
  if m.data.isEmpty then .error .emptyMediaRange
  else
    match parseTypeSubtype m with
    | .error e => .error e
    | .ok (t, subT, params) =>
        match params.lookup "q" with
        | none => .ok ⟨t, subT, params, 1⟩
        | some q =>
            match goParseFloat q with
            | none => .error .numberParse
            | some v =>
                match newQualityValue v with
                | .error e => .error e
                | .ok qv => .ok ⟨t, subT, params, qv⟩

/-- `MediaRange.HasParams`: some parameter key other than `q` exists. -/
def MediaRange.hasParams (mr : MediaRange) : Bool :=
  mr.params.any (fun kv => kv.1 ≠ "q")

/-- `MediaRange.Precedence`.  Note that `len(mr.params)` counts every
parameter of the parsed range, the `q` parameter included. -/
def MediaRange.precedence (mr : MediaRange) : ℤ :=
  if mr.t = "*" ∧ mr.subT = "*" then 0 + mr.params.length
  else if mr.subT = "*" then 1 + mr.params.length
  else 2 + mr.params.length

/-- `MediaRange.Compatible`: parse the candidate media type, then match type
and subtype case-insensitively with wildcard tolerance; when the range has
non-`q` parameters, every range parameter (including `q`) must appear with an
equal value on the candidate. -/
def MediaRange.compatible (mr : MediaRange) (mediaType : String) :
    Except GoErr Bool :=
  match parseTypeSubtype mediaType with
  | .error e => .error e
  | .ok (t, subT, params) =>
      let matchedType := (lowerStr mr.t == lowerStr t) || mr.t == "*"
      let matchedSubType := (lowerStr mr.subT == lowerStr subT) || mr.subT == "*"
      let matchedParams :=
        if mr.hasParams then
          mr.params.all (fun kv => params.lookup kv.1 == some kv.2)
        else true
      .ok (matchedType && matchedSubType && matchedParams)

/-! ## Accept (accept.go) -/

/-- The `Accept` header: a list of media ranges. -/
abbrev Accept := List MediaRange

/-- Model of `NewAccept`. -/
def newAccept (accept : List String) : Except GoErr Accept :=
  if accept.isEmpty then .ok [] else accept.mapM parseMediaRange

/-- The comparator `Accept.MediaRanges` hands to `sort.Slice`: on equal
three-decimal-rounded quality values, strictly greater precedence; otherwise
strictly greater rounded quality value. -/
def acceptLess (f s : MediaRange) : Bool :=
  if qvEquals f.qValue s.qValue then decide (s.precedence < f.precedence)
  else qvGreaterThan f.qValue s.qValue

/-- Model of `Accept.MediaRanges`: the ranges sorted by `acceptLess`. -/
def acceptMediaRanges (a : Accept) : List MediaRange := goSortSlice acceptLess a

/-- `Accept.IsEmpty`. -/
def acceptIsEmpty (a : Accept) : Bool := a.length == 0

/-! ## CharsetRange and Accept-Charset (charset_range.go) -/

/-- The `^([A-Za-z0-9-]+|\*)` group of the range regex: the matched group
and the remainder. -/
def rangeRegexGroup1 (cs : List Char) : Option (List Char × List Char) :=
  if cs.takeWhile isAlnumDash ≠ [] then
    some (cs.takeWhile isAlnumDash, cs.drop (cs.takeWhile isAlnumDash).length)
  else
    match cs with
    | '*' :: rest => some (['*'], rest)
    | _ => none

/-- The optional single whitespace of the `;\s?` clause. -/
def eatOneRegexSpace (r1 : List Char) : List Char :=
  match r1 with
  | c :: t => if isRegexSpace c then t else r1
  | [] => r1

/-- The `q=(\d(\.\d{1,3})?)$` tail of the range regex. -/
def rangeRegexQBody (r2 : List Char) : Option (Char × Option (List Char)) :=
  match r2 with
  | 'q' :: '=' :: d :: r3 =>
      if d.isDigit then
        match r3 with
        | [] => some (d, none)
        | '.' :: fr =>
            if fr ≠ [] ∧ fr.length ≤ 3 ∧ fr.all Char.isDigit then
              some (d, some fr)
            else none
        | _ => none
      else none
  | _ => none

/-- Structural match of the range regex
`^([A-Za-z0-9-]+|\*)(;\s?q=(\d(\.\d{1,3})?))?$` shared by the charset and
content-coding parsers.  Returns group 1 and, when the q-clause is present,
the single integer digit with the optional run of 1–3 fractional digits. -/
def rangeRegexMatch (s : String) :
    Option (String × Option (Char × Option (List Char))) :=
  match rangeRegexGroup1 s.data with
  | none => none
  | some (g, rest) =>
      match rest with
      | [] => some (String.mk g, none)
      | ';' :: r1 =>
          match rangeRegexQBody (eatOneRegexSpace r1) with
          | none => none
          | some q => some (String.mk g, some q)
      | _ => none

/-- `header.CharsetRange`. -/
structure CharsetRange where
  r : String
  qValue : Frac
deriving DecidableEq, Repr

/-- Model of `NewCharsetRange`.  The quality is parsed from regex group 3 —
the complete `d[.ddd]` number. -/
def newCharsetRange (charset : String) : Except GoErr CharsetRange :=
  if charset.data.isEmpty then .error .emptyCharsetRange
  else
    match rangeRegexMatch charset with
    | none => .error .invalidCharsetRange
    | some (g1, qopt) =>
        match qopt with
        | none => .ok ⟨lowerStr g1, 1⟩
        | some (d, fro) =>
            let g3 : List Char := d :: (match fro with
              | none => []
              | some fr => '.' :: fr)
            let q : Frac := (goParseFloat (String.mk g3)).getD 0
            match newQualityValue q with
            | .error e => .error e
            | .ok qv => .ok ⟨lowerStr g1, qv⟩

/-- `CharsetRange.IsWildcard`. -/
def CharsetRange.isWildcard (c : CharsetRange) : Bool := c.r == "*"

/-- `CharsetRange.Compatible`: wildcard, or case-insensitive equality. -/
def CharsetRange.compatible (c : CharsetRange) (charset : String) : Bool :=
  if c.isWildcard then true else lowerStr c.r == lowerStr charset

/-- The `Accept-Charset` header: a list of charset ranges. -/
abbrev AcceptCharset := List CharsetRange

/-- Model of `NewAcceptCharset`. -/
def newAcceptCharset (vals : List String) : Except GoErr AcceptCharset :=
  if vals.isEmpty then .ok [] else vals.mapM newCharsetRange

/-- Model of `AcceptCharset.CharsetRanges`: sorted by quality descending. -/
def charsetRanges (c : AcceptCharset) : List CharsetRange :=
  goSortSlice (fun f s => qvGreaterThan f.qValue s.qValue) c

/-- `AcceptCharset.IsEmpty`. -/
def acceptCharsetIsEmpty (c : AcceptCharset) : Bool := c.length == 0

/-! ## ContentCodingRange and Accept-Encoding -/

/-- The valid content codings, in source order. -/
def contentCodings : List String :=
  ["gzip", "x-gzip", "deflate", "compress", "x-compress", "identity", "*"]

/-- `header.ContentCodingRange`. -/
structure ContentCodingRange where
  coding : String
  qValue : Frac
deriving DecidableEq, Repr

/-- Regex group 4 of the content-coding range regex: the fractional part
`.ddd` of the number, dot included — or nothing when the fraction is
absent. -/
def ccrGroup4 (fro : Option (List Char)) : List Char :=
  match fro with
  | none => []
  | some fr => '.' :: fr

/-- Model of `NewContentCodingRange`.  The coding must be one of the seven
valid codings (a case-sensitive membership test).  The quality is parsed from
regex group 4 — only the fractional part `.ddd` of the number: when the
fraction is absent, `strconv.ParseFloat("")` fails and the error-ignoring
assignment leaves the zero value `0`. -/
def newContentCodingRange (contentCoding : String) :
    Except GoErr ContentCodingRange :=
  if contentCoding.data.isEmpty then .error .emptyContentCodingRange
  else
    match rangeRegexMatch contentCoding with
    | none => .error .invalidContentCodingRange
    | some (g1, qopt) =>
        if contentCodings.contains g1 then
          match qopt with
          | none => .ok ⟨g1, 1⟩
          | some (_, fro) =>
              match newQualityValue
                  ((goParseFloat (String.mk (ccrGroup4 fro))).getD 0) with
              | .error e => .error e
              | .ok qv => .ok ⟨g1, qv⟩
        else .error .invalidContentCodingRange

/-- `ContentCodingRange.IsWildcard`. -/
def ContentCodingRange.isWildcard (c : ContentCodingRange) : Bool :=
  c.coding == "*"

/-- `ContentCodingRange.Compatible`: the candidate coding must itself be a
valid coding (case-insensitively), then wildcard or case-insensitive match. -/
def ContentCodingRange.compatible (cc : ContentCodingRange) (coding : String) :
    Bool :=
  if contentCodings.contains (lowerStr coding) then
    if cc.isWildcard then true else lowerStr cc.coding == lowerStr coding
  else false

/-- Model of `ContentCodingRange.String`: `coding;q=d.ddd`. -/
def contentCodingRangeFmt (cc : ContentCodingRange) : String :=
  cc.coding ++ ";q=" ++ fmtQ3 cc.qValue

/-- The `Accept-Encoding` header: a list of content-coding ranges. -/
abbrev AcceptEncoding := List ContentCodingRange

/-- Model of `AcceptEncoding.CodingRanges`: sorted by quality descending. -/
def codingRanges (e : AcceptEncoding) : List ContentCodingRange :=
  goSortSlice (fun f s => qvGreaterThan f.qValue s.qValue) e

/-- `AcceptEncoding.IsEmpty`. -/
def acceptEncodingIsEmpty (e : AcceptEncoding) : Bool := e.length == 0

/-! ## LanguageRange and Accept-Language (language_range.go)

`LanguageRange.Compatible` delegates to the BCP-47 matcher of
`golang.org/x/text/language`, an external library.  The negotiator consumes
it only through the two predicates below, which we treat as an oracle
parameter of the development. -/

/-- Oracle for `golang.org/x/text/language`: whether a tag parses, and
whether the matcher built from a range's tag matches a candidate tag. -/
structure LangOracle where
  parseOk : String → Bool
  tagMatch : String → String → Bool

/-- `header.LanguageRange` (the parsed BCP-47 tag is kept as its string). -/
structure LanguageRange where
  lrange : String
  qValue : Frac
deriving DecidableEq, Repr

/-- `LanguageRange.IsWildcard`. -/
def LanguageRange.isWildcard (lr : LanguageRange) : Bool := lr.lrange == "*"

/-- Model of `LanguageRange.Compatible`: an unparseable candidate tag is
incompatible; the wildcard matches everything; otherwise ask the matcher. -/
def languageCompatible (o : LangOracle) (lr : LanguageRange) (tag : String) :
    Bool :=
  if o.parseOk tag then
    if lr.isWildcard then true else o.tagMatch lr.lrange tag
  else false

/-- The `Accept-Language` header: a list of language ranges in header
order. -/
abbrev AcceptLanguage := List LanguageRange

/-- `AcceptLanguage.IsEmpty`. -/
def acceptLanguageIsEmpty (al : AcceptLanguage) : Bool := al.length == 0

/-! ## Feature tags, values and sets (negotiate.go types / feature_set.go)

`FeatureTag.Equals` normalises both operands through
`strconv.QuoteToASCII(strings.Trim(s, "\""))` and its `Unquote` inverse and
compares case-insensitively; on ASCII tags without escape characters (the
exercised fragment) both the quoted and the unquoted comparison reduce to a
case-insensitive comparison of the quote-trimmed strings.
`FeatureTagValue.Equals` is the case-sensitive analogue. -/

/-- `strings.Trim(s, "\"")`: remove all leading and trailing quotes. -/
def trimQuotes (s : String) : String := trimChar s '\"'

/-- Model of `FeatureTag.Equals` (ASCII fragment). -/
def ftEquals (t u : String) : Bool :=
  lowerStr (trimQuotes t) == lowerStr (trimQuotes u)

/-- Model of `FeatureTagValue.Equals` (ASCII fragment): case-sensitive,
quote-trimmed, octet-by-octet comparison. -/
def ftvEquals (a b : String) : Bool := trimQuotes a == trimQuotes b

/-- `FeatureTagValue.IsNumeric`: whether `strconv.ParseFloat` accepts it. -/
def ftvIsNumeric (v : String) : Bool := (goParseFloat v).isSome

/-- `header.FeatureSet`: a map from feature tag to its values, embedded as
an association list.  Go map iteration order is unspecified; every consumer
below is insensitive to entry order, and new tags are appended at the end. -/
abbrev FeatureSet := List (String × List String)

/-- `FeatureSet.Contains`. -/
def fsContains (s : FeatureSet) (tag : String) : Bool :=
  s.any (fun e => ftEquals e.1 tag)

/-- `FeatureSet.Values`: collect the values of every entry whose tag matches,
with the found flag. -/
def fsValues (s : FeatureSet) (tag : String) : List String × Bool :=
  s.foldl (fun acc e => if ftEquals e.1 tag then (acc.1 ++ e.2, true) else acc)
    ([], false)

/-- Model of `FeatureSet.Add`.  When the tag is new, insert it with the
provided values.  When the tag exists, the source's `range` loop shadows the
`values` parameter with the entry's own value slice, so each matching entry
appends its own values to itself and the provided values are discarded. -/
def fsAdd (s : FeatureSet) (tag : String) (values : List String) : FeatureSet :=
  if fsContains s tag then
    s.map (fun e => if ftEquals e.1 tag then (e.1, e.2 ++ e.2) else e)
  else s ++ [(tag, values)]

/-! ## Feature predicates (feature_predicate.go) -/

/-- `FeaturePredicate`: the five predicate forms of RFC 2295 §6.  The
source's `exists` struct is called `present` here (`exists` is reserved). -/
inductive FeaturePredicate where
  | present (t : String)
  | absent (t : String)
  | equalsP (t v : String)
  | notEqualsP (t v : String)
  | within (t lo hi : String)
deriving DecidableEq, Repr

/-- Model of the five `Evaluate` methods. -/
def fpEvaluate (p : FeaturePredicate) (sup unsup : FeatureSet) : Bool :=
  match p with
  | .present t => fsContains sup t
  | .absent t =>
      let r := fsValues unsup t
      !fsContains sup t && r.2 && r.1.length == 0
  | .equalsP t v =>
      let r := fsValues sup t
      r.2 && r.1.any (fun val => ftvEquals v val)
  | .notEqualsP t v =>
      let r := fsValues sup t
      if !r.2 then false else !(r.1.any (fun val => ftvEquals v val))
  | .within t lo hi =>
      let r := fsValues sup t
      if !r.2 then false
      else
        let low := (goAtoi lo).getD 0
        let high := (goAtoi hi).getD 0
        let highest := r.1.foldl
          (fun h val =>
            if ftvIsNumeric val && ftvIsNumeric lo && ftvIsNumeric hi then
              let num := (goAtoi val).getD 0
              if h < num then num else h
            else h) 0
        decide (low ≤ highest ∧ highest ≤ high)

/-- Consume the optional single whitespace character of a `\s?`. -/
def eatOptSpace (l : List Char) : List Char :=
  match l with
  | c :: t => if isRegexSpace c then t else l
  | [] => l

/-- Match `^(\w+)$`. -/
def fpParseExists (p : List Char) : Option FeaturePredicate :=
  if p ≠ [] ∧ p.all isWordChar then some (.present (String.mk p)) else none

/-- Match `^(!(\w+))$`. -/
def fpParseAbsent (p : List Char) : Option FeaturePredicate :=
  match p with
  | '!' :: t =>
      if t ≠ [] ∧ t.all isWordChar then some (.absent (String.mk t)) else none
  | _ => none

/-- Match `^(\w+)\s?=\s?(\w+)$`. -/
def fpParseEquals (p : List Char) : Option FeaturePredicate :=
  let w1 := p.takeWhile isWordChar
  let r1 := p.drop w1.length
  if w1 = [] then none
  else
    match eatOptSpace r1 with
    | '=' :: r3 =>
        let r4 := eatOptSpace r3
        let w2 := r4.takeWhile isWordChar
        if w2 ≠ [] ∧ r4.drop w2.length = [] then
          some (.equalsP (String.mk w1) (String.mk w2))
        else none
    | _ => none

/-- Match `^(\w+)\s?!=\s?(\w+)$`. -/
def fpParseNotEquals (p : List Char) : Option FeaturePredicate :=
  let w1 := p.takeWhile isWordChar
  let r1 := p.drop w1.length
  if w1 = [] then none
  else
    match eatOptSpace r1 with
    | '!' :: '=' :: r3 =>
        let r4 := eatOptSpace r3
        let w2 := r4.takeWhile isWordChar
        if w2 ≠ [] ∧ r4.drop w2.length = [] then
          some (.notEqualsP (String.mk w1) (String.mk w2))
        else none
    | _ => none

/-- Match `^(\w+)\s?=\s?\[\s?(\d+)?\s?-\s?(\d+)?\s?\]$` (the optional digit
groups yield the empty string when absent, as Go's submatches do). -/
def fpParseRange (p : List Char) : Option FeaturePredicate :=
  let w1 := p.takeWhile isWordChar
  let r1 := p.drop w1.length
  if w1 = [] then none
  else
    match eatOptSpace r1 with
    | '=' :: r3 =>
        (match eatOptSpace r3 with
         | '[' :: r5 =>
             let r6 := eatOptSpace r5
             let lo := r6.takeWhile Char.isDigit
             let r7 := eatOptSpace (r6.drop lo.length)
             (match r7 with
              | '-' :: r8 =>
                  let r9 := eatOptSpace r8
                  let hi := r9.takeWhile Char.isDigit
                  (match eatOptSpace (r9.drop hi.length) with
                   | [']'] =>
                       some (.within (String.mk w1) (String.mk lo) (String.mk hi))
                   | _ => none)
              | _ => none)
         | _ => none)
    | _ => none

/-- Model of `NewFeaturePredicate`: the five patterns tried in source
order. -/
def newFeaturePredicate (p : String) : Except GoErr FeaturePredicate :=
  match fpParseExists p.data with
  | some fp => .ok fp
  | none =>
    match fpParseAbsent p.data with
    | some fp => .ok fp
    | none =>
      match fpParseEquals p.data with
      | some fp => .ok fp
      | none =>
        match fpParseNotEquals p.data with
        | some fp => .ok fp
        | none =>
          match fpParseRange p.data with
          | some fp => .ok fp
          | none => .error .invalidPredicate

/-- Model of `NewFeaturePredicateBag`: matched bracket counts, strip one
trailing `]` and one leading `[`, trim, split on single spaces, parse each
predicate. -/
def newFeaturePredicateBag (pb : String) :
    Except GoErr (List FeaturePredicate) :=
  if countChar pb '[' ≠ countChar pb ']' then .error .invalidPredicateBag
  else
    let inner := trimSpace (trimPrefixStr (trimSuffixStr pb "]") "[")
    ((splitOnChar ' ' inner.data).map String.mk).mapM newFeaturePredicate

/-- `FeaturePredicateBag.Evaluate`: disjunction over the bag. -/
def bagEvaluate (ps : List FeaturePredicate) (sup unsup : FeatureSet) : Bool :=
  ps.any (fun p => fpEvaluate p sup unsup)

/-! ## Feature list elements and feature lists (feature_list_element.go,
feature_list.go) -/

/-- `FeatureListElement`: a predicate or a predicate bag, with the optional
parsed true-improvement and false-degradation factors. -/
inductive FeatureListElement where
  | pred (p : FeaturePredicate) (ti fd : Option Frac)
  | bag (ps : List FeaturePredicate) (ti fd : Option Frac)
deriving DecidableEq, Repr

/-- `TrueImprovement()`: the parsed factor, defaulting to `1.0`. -/
def elemTrueImprovement : FeatureListElement → Frac
  | .pred _ ti _ => ti.getD 1
  | .bag _ ti _ => ti.getD 1

/-- `FalseDegradation()`: the parsed factor; absent, it defaults to `1.0`
when a true-improvement was given and to `0.0` otherwise. -/
def elemFalseDegradation : FeatureListElement → Frac
  | .pred _ ti fd => fd.getD (if ti.isSome then 1 else 0)
  | .bag _ ti fd => fd.getD (if ti.isSome then 1 else 0)

/-- `FeatureListElement.Evaluate`. -/
def elemEvaluate (sup unsup : FeatureSet) : FeatureListElement → Bool
  | .pred p _ _ => fpEvaluate p sup unsup
  | .bag ps _ _ => bagEvaluate ps sup unsup

/-- Match `\d+(\.\d{1,4})?` greedily, returning the value and remainder. -/
def parseNumber14 (l : List Char) : Option (Frac × List Char) :=
  let ip := l.takeWhile Char.isDigit
  let rest := l.drop ip.length
  if ip = [] then none
  else
    match rest with
    | '.' :: t =>
        let fr := t.takeWhile Char.isDigit
        if fr ≠ [] ∧ fr.length ≤ 4 then
          some ((⟨(digitsToNat ip : ℤ), 1⟩ : Frac) +
              ⟨(digitsToNat fr : ℤ), (10 : ℤ) ^ fr.length⟩,
            t.drop fr.length)
        else none
    | _ => some ((⟨(digitsToNat ip : ℤ), 1⟩ : Frac), rest)

/-- Match the improvement/degradation clause
`^(\+(\d+(\.\d{1,4})?))?(\-(\d+(\.\d{1,4})?))?$`, yielding the optional
true-improvement and false-degradation numbers. -/
def parseImprovementDegradation (s : String) : Option (Option Frac × Option Frac) :=
  let step1 : Option (Option Frac × List Char) :=
    match s.data with
    | '+' :: t =>
        (match parseNumber14 t with
         | some (v, r) => some (some v, r)
         | none => none)
    | cs => some (none, cs)
  match step1 with
  | none => none
  | some (ti, r1) =>
      match r1 with
      | [] => some (ti, none)
      | '-' :: t =>
          (match parseNumber14 t with
           | some (v, r2) => if r2 = [] then some (ti, some v) else none
           | none => none)
      | _ => none

/-- Model of `NewPredicateListElement`: split on `;`, parse the predicate,
then (when present) the improvement/degradation clause; extra `;`-parts are
ignored as in the source. -/
def newPredicateListElement (element : String) :
    Except GoErr FeatureListElement :=
  match (splitOnChar ';' element.data).map String.mk with
  | [] => .error .invalidPredicate
  | p0 :: rest =>
      match newFeaturePredicate p0 with
      | .error e => .error e
      | .ok fp =>
          match rest with
          | [] => .ok (.pred fp none none)
          | p1 :: _ =>
              match parseImprovementDegradation p1 with
              | none => .error .invalidPredicateListElement
              | some (ti, fd) => .ok (.pred fp ti fd)

/-- Model of `NewPredicateBagListElement`. -/
def newPredicateBagListElement (element : String) :
    Except GoErr FeatureListElement :=
  match (splitOnChar ';' element.data).map String.mk with
  | [] => .error .invalidPredicateBag
  | p0 :: rest =>
      match newFeaturePredicateBag p0 with
      | .error e => .error e
      | .ok ps =>
          match rest with
          | [] => .ok (.bag ps none none)
          | p1 :: _ =>
              match parseImprovementDegradation p1 with
              | none => .error .invalidPredicateListElement
              | some (ti, fd) => .ok (.bag ps ti fd)

/-- The `FeatureList` container. -/
abbrev FeatureList := List FeatureListElement

/-- Model of `NewFeatureList`: bracket-delimited feature strings parse as
bag elements, everything else as predicate elements. -/
def newFeatureList (features : List String) : Except GoErr FeatureList :=
  features.mapM fun f =>
    if startsWithStr f "[" && endsWithStr f "]" then newPredicateBagListElement f
    else newPredicateListElement f

/-- Model of `FeatureList.QualityDegradation`: the product, starting at
`1.0`, of each element's true-improvement (when it evaluates true) or
false-degradation (when it evaluates false). -/
def qualityDegradation (fl : FeatureList) (sup unsup : FeatureSet) : Frac :=
  fl.foldl
    (fun d e =>
      d * (if elemEvaluate sup unsup e then elemTrueImprovement e
           else elemFalseDegradation e))
    1

/-! ## Feature expressions and Accept-Features (accept_features.go and the
`FeatureExpression` source file) -/

/-- `strings.Contains(e, "!=")`, via the `!=` split. -/
def containsNE (e : String) : Bool := (splitOnNE e.data).length > 1

/-- `strings.Contains(e, "=")`. -/
def containsEq (e : String) : Bool := e.data.contains '='

/-- `FeatureExpression.parseValue`: no value on negations; the segment after
the first `!=`; for `=`, only an `{`-`}` delimited (exclusive) value is
recognised — a plain `tag=value` expression yields no value. -/
def feValueOpt (e : String) : Option String :=
  if startsWithStr e "!" then none
  else
    match (splitOnNE e.data).map String.mk with
    | _ :: v :: _ => some v
    | _ =>
        match (splitOnChar '=' e.data).map String.mk with
        | _ :: v :: _ =>
            if startsWithStr v "\x7b" && endsWithStr v "\x7d" then
              some (String.mk (v.data.filter (fun c => c ≠ '{' ∧ c ≠ '}')))
            else none
        | _ => none

/-- `FeatureExpression.Tag`. -/
def feTag (e : String) : String :=
  if startsWithStr e "!" then trimLeftChar e '!'
  else
    match (splitOnNE e.data).map String.mk with
    | s0 :: _ :: _ => s0
    | _ =>
        match (splitOnChar '=' e.data).map String.mk with
        | s0 :: _ :: _ => s0
        | _ => e

/-- `FeatureExpressionType`. -/
inductive FeatureExpressionType where
  | existsT | notExistsT | equalsT | exclusiveEqualsT | notEqualsT | wildcardT
deriving DecidableEq, Repr

/-- `FeatureExpression.IsExclusive`. -/
def feIsExclusive (e : String) : Bool :=
  (feValueOpt e).isSome && e.data.contains '{' && e.data.contains '}' 

/-- `FeatureExpression.Type`. -/
def feType (e : String) : FeatureExpressionType :=
  if startsWithStr e "!" then .notExistsT
  else if containsNE e then .notEqualsT
  else if containsEq e then
    (if feIsExclusive e then .exclusiveEqualsT else .equalsT)
  else if e == "*" then .wildcardT
  else .existsT

/-- The `Accept-Features` header: the raw feature expressions. -/
abbrev AcceptFeatures := List String

/-- `AcceptFeatures.IsEmpty`. -/
def acceptFeaturesIsEmpty (f : AcceptFeatures) : Bool := f.length == 0

/-- Model of `AcceptFeatures.AsFeatureSets`: project the expressions onto
the supported and unsupported feature sets. -/
def asFeatureSets (f : AcceptFeatures) : FeatureSet × FeatureSet :=
  f.foldl
    (fun acc e =>
      match feType e with
      | .existsT => (fsAdd acc.1 (feTag e) [], acc.2)
      | .notExistsT => (acc.1, fsAdd acc.2 (feTag e) [])
      | .equalsT => (fsAdd acc.1 (feTag e) [(feValueOpt e).getD ""], acc.2)
      | .exclusiveEqualsT =>
          (fsAdd acc.1 (feTag e) [(feValueOpt e).getD ""], acc.2)
      | .notEqualsT =>
          (fsAdd acc.1 (feTag e) [],
           fsAdd acc.2 (feTag e) [(feValueOpt e).getD ""])
      | .wildcardT => acc)
    ([], [])

/-! ## Representations

`representation.Representation` is an interface; the negotiation core only
reads the metadata accessors and `Bytes()`.  We embed a representation as a
record of those observations: `bytes` is the (deterministic) result of
`Bytes()`, with `.error` for a serialization failure (in which case the Go
method returns a nil slice alongside the error). -/

deriving instance DecidableEq for Except

/-- A representation, as observed by the negotiation core.  (The source
calls this `Representation`; Mathlib already takes that name.) -/
structure HttpRep where
  contentType : String
  contentLanguage : String
  contentEncoding : List String
  contentCharset : String
  contentLocation : String
  contentFeatures : List String
  sourceQuality : Frac
  bytes : Except GoErr (List UInt8)
deriving DecidableEq, Repr

/-- `representation.RankedRepresentation` (fields as populated by the two
choosers; a field a chooser does not set keeps Go's zero value). -/
structure RankedRepresentation where
  rep : HttpRep
  sourceQualityValue : Frac
  mediaTypeQualityValue : Frac
  charsetQualityValue : Frac
  encodingQualityValue : Frac
  languageQualityValue : Frac
  featureQualityValue : Frac
  languageOrderScore : ℤ
  isDefinite : Bool
deriving DecidableEq, Repr

/-! ## The RVSA/1.0 chooser (transparent negotiation) -/

/-- `rvsa1.acceptQuality`: quality and wildcard flag for the media type
dimension.  `Compatible` errors are not propagated — a range whose
compatibility test errors is simply skipped. -/
def rvsaAcceptQuality (rep : HttpRep) (accept : Accept) : Frac × Bool :=
  if rep.contentType == "" then (1, false)
  else if acceptIsEmpty accept then (1, true)
  else
    match (acceptMediaRanges accept).find?
        (fun mr => decide (mr.compatible rep.contentType = .ok true)) with
    | none => (0, false)
    | some mr => (mr.qValue, mr.t == "*" || mr.subT == "*")

/-- `rvsa1.acceptLanguageQuality`. -/
def rvsaAcceptLanguageQuality (o : LangOracle) (rep : HttpRep)
    (al : AcceptLanguage) : Frac × Bool :=
  if rep.contentLanguage == "" then (1, false)
  else if acceptLanguageIsEmpty al then (1, true)
  else
    match al.find? (fun lr => languageCompatible o lr rep.contentLanguage) with
    | none => (0, false)
    | some lr => (lr.qValue, lr.isWildcard)

/-- `rvsa1.acceptCharsetQuality`. -/
def rvsaAcceptCharsetQuality (rep : HttpRep) (ac : AcceptCharset) :
    Frac × Bool :=
  if rep.contentCharset == "" then (1, false)
  else if acceptCharsetIsEmpty ac then (1, true)
  else
    match (charsetRanges ac).find?
        (fun c => c.compatible rep.contentCharset) with
    | none => (0, false)
    | some c => (c.qValue, c.isWildcard)

/-- `rvsa1.acceptFeatureQuality`: a feature-list parse failure is a Go
`panic(err)`, embedded as the `featureParsePanic` error.  The wildcard flag
is declared but never set on the nonempty-header path. -/
def rvsaAcceptFeatureQuality (rep : HttpRep) (af : AcceptFeatures) :
    Except GoErr (Frac × Bool) :=
  if rep.contentFeatures.length == 0 then .ok (1, false)
  else if acceptFeaturesIsEmpty af then .ok (1, true)
  else
    match newFeatureList rep.contentFeatures with
    | .error _ => .error .featureParsePanic
    | .ok fl =>
        let ss := asFeatureSets af
        .ok (qualityDegradation fl ss.1 ss.2, false)

/-- The ranked representation `rvsa1.Choose` builds for one candidate. -/
def rvsaRank (o : LangOracle) (a : Accept) (al : AcceptLanguage)
    (ac : AcceptCharset) (af : AcceptFeatures) (rep : HttpRep) :
    Except GoErr RankedRepresentation :=
  let qt := rvsaAcceptQuality rep a
  let qc := rvsaAcceptCharsetQuality rep ac
  let ql := rvsaAcceptLanguageQuality o rep al
  match rvsaAcceptFeatureQuality rep af with
  | .error e => .error e
  | .ok qf =>
      .ok ⟨rep, rep.sourceQuality, qt.1, qc.1, 0, ql.1, qf.1, 0,
        !qt.2 && !qc.2 && !ql.2 && !qf.2⟩

/-- `rvsa1.overallQuality`: the product of the five dimension qualities,
rounded to five decimals. -/
def rvsaOverallQuality (v : RankedRepresentation) : Frac :=
  qvRound 5 (v.sourceQualityValue * v.mediaTypeQualityValue *
    v.charsetQualityValue * v.languageQualityValue * v.featureQualityValue)

/-- The comparator `rvsa1.Choose` hands to `Set.Sort`: strictly greater
overall quality. -/
def rvsaLess (v1 v2 : RankedRepresentation) : Bool :=
  decide (rvsaOverallQuality v2 < rvsaOverallQuality v1)

/-- Model of `rvsa1.Choose`: rank every candidate, sort by overall quality
descending, then inspect only the first element of the sorted set: it is
returned when its overall quality is positive and it is definite; otherwise
the chooser reports no choice. -/
def rvsaChoose (o : LangOracle) (a : Accept) (al : AcceptLanguage)
    (ac : AcceptCharset) (af : AcceptFeatures)
    (reps : List HttpRep) : Except GoErr (Option HttpRep) :=
  match reps.mapM (rvsaRank o a al ac af) with
  | .error e => .error e
  | .ok variants =>
      if variants.isEmpty then .ok none
      else
        match goSortSlice rvsaLess variants with
        | [] => .error .indexOutOfRange
        | highest :: _ =>
            if 0 < rvsaOverallQuality highest ∧ highest.isDefinite then
              .ok (some highest.rep)
            else .ok none

/-! ## The Apache-httpd chooser (proactive negotiation) -/

/-- `httpd.acceptQuality`. -/
def httpdAcceptQuality (rep : HttpRep) (accept : Accept) : Frac :=
  if rep.contentType == "" || acceptIsEmpty accept then 1
  else
    match (acceptMediaRanges accept).find?
        (fun mr => decide (mr.compatible rep.contentType = .ok true)) with
    | none => 0
    | some mr => mr.qValue

/-- `httpd.acceptCharsetQuality`. -/
def httpdAcceptCharsetQuality (rep : HttpRep) (ac : AcceptCharset) : Frac :=
  if rep.contentCharset == "" || acceptCharsetIsEmpty ac then 1
  else
    match (charsetRanges ac).find?
        (fun c => c.compatible rep.contentCharset) with
    | none => 0
    | some c => c.qValue

/-- `httpd.acceptLanguageQuality`: quality and language-order score.  The
score is `len(header) - idx` for the first compatible range at 0-based
position `idx` of the header in its original order, `0` otherwise. -/
def httpdAcceptLanguageQuality (o : LangOracle) (rep : HttpRep)
    (al : AcceptLanguage) : Frac × ℤ :=
  if rep.contentLanguage == "" || acceptLanguageIsEmpty al then (1, 0)
  else
    match al.enum.find?
        (fun p => languageCompatible o p.2 rep.contentLanguage) with
    | none => (0, 0)
    | some p => (p.2.qValue, (al.length : ℤ) - p.1)

/-- `httpd.acceptEncodingQuality`: the first coding range (by sorted
preference) compatible with any of the representation's codings. -/
def httpdAcceptEncodingQuality (rep : HttpRep) (ae : AcceptEncoding) :
    Frac :=
  if rep.contentEncoding.length == 0 || acceptEncodingIsEmpty ae then 1
  else
    match (codingRanges ae).find?
        (fun c => rep.contentEncoding.any (fun e => c.compatible e)) with
    | none => 0
    | some c => c.qValue

/-- A pipeline filter: `proactive.filter`: `func(representation.Set) (representation.Set, error)`. -/
abbrev PipelineFilter :=
  List RankedRepresentation → Except GoErr (List RankedRepresentation)

/-- The shared shape of the four keep-the-maximal-quality filters: sort by
the key descending (`QualityValue.GreaterThan`), take the first variant, and
keep every variant whose key `Equals` (three-decimal-rounded) the first
variant's key. -/
def keepMaxByQv (key : RankedRepresentation → Frac) : PipelineFilter :=
  fun variants =>
    match goSortSlice (fun vi vj => qvGreaterThan (key vi) (key vj)) variants with
    | [] => .error .indexOutOfRange
    | highest :: rest =>
        .ok ((highest :: rest).filter (fun v => qvEquals (key v) (key highest)))

/-- Step 2.1 `bestSourceAndType`: keep the variants whose source × media-type
quality product equals (after three-decimal rounding) that of the maximal
variant. -/
def bestSourceAndType : PipelineFilter :=
  keepMaxByQv (fun v => qvMultiply v.sourceQualityValue v.mediaTypeQualityValue)

/-- Step 2.2 `bestLanguage`. -/
def bestLanguage : PipelineFilter :=
  keepMaxByQv (fun v => v.languageQualityValue)

/-- Step 2.3 `bestLanguageOrder`: sort ascending and keep the variants whose
score equals the first (lowest) one. -/
def bestLanguageOrder : PipelineFilter := fun variants =>
  match goSortSlice
      (fun vi vj => decide (vi.languageOrderScore < vj.languageOrderScore))
      variants with
  | [] => .error .indexOutOfRange
  | highest :: rest =>
      .ok ((highest :: rest).filter (fun v =>
        v.languageOrderScore == highest.languageOrderScore))

/-- The html-with-level collection pass of `bestLevel`: for each variant,
parse its content type; a `text/html` variant with a `level` parameter must
have an integer level (`strconv.ParseInt(l, 0, 32)`), which is paired with
the variant. -/
def collectHtmlLevels :
    List RankedRepresentation → Except GoErr (List (RankedRepresentation × ℤ))
  | [] => .ok []
  | v :: rest =>
      match goParseMediaType v.rep.contentType with
      | none => .error .invalidMediaType
      | some (mt, p) =>
          match p.lookup "level", mt == "text/html" with
          | some l, true =>
              (match goParseIntBase0Size32 l with
               | none => .error .numberParse
               | some n =>
                   match collectHtmlLevels rest with
                   | .error e => .error e
                   | .ok t => .ok ((v, n) :: t))
          | _, _ => collectHtmlLevels rest

/-- Step 2.4 `bestLevel`: when some variant is `text/html` with a `level`
parameter, return all such variants sorted by level descending; otherwise
pass the set through unchanged. -/
def bestLevel : PipelineFilter := fun variants =>
  match collectHtmlLevels variants with
  | .error e => .error e
  | .ok hwl =>
      if hwl.length > 0 then
        .ok ((goSortSlice (fun a b => decide (b.2 < a.2)) hwl).map Prod.fst)
      else .ok variants

/-- Step 2.5 `bestCharset`. -/
def bestCharset : PipelineFilter :=
  keepMaxByQv (fun v => v.charsetQualityValue)

/-- The variants whose charset is not `iso-8859-1` (case-insensitively). -/
def notISOFilter (variants : List RankedRepresentation) :
    List RankedRepresentation :=
  variants.filter (fun v => !(lowerStr v.rep.contentCharset == "iso-8859-1"))

/-- Step 2.6 `notISO88591`: when some but not all variants have a charset
other than `iso-8859-1`, keep those; otherwise pass through. -/
def notISO88591 : PipelineFilter := fun variants =>
  if !(notISOFilter variants).isEmpty &&
      !((notISOFilter variants).length == variants.length) then
    .ok (notISOFilter variants)
  else .ok variants

/-- Step 2.7 `bestEncoding`. -/
def bestEncoding : PipelineFilter :=
  keepMaxByQv (fun v => v.encodingQualityValue)

/-- The sort key of step 2.8: the comparator reads a length only when
`Bytes()` fails (its error check is inverted), and a failing `Bytes()`
yields a nil slice — so the key is always `0` and the sort leaves the set in
its incoming order. -/
def buggyLengthKey (v : RankedRepresentation) : ℕ :=
  match v.rep.bytes with
  | .error _ => ([] : List UInt8).length
  | .ok _ => 0

/-- The variants whose length — a failing serialization counting as `0` —
equals `n`. -/
def lengthEqFilter (l : List RankedRepresentation) (n : ℕ) :
    List RankedRepresentation :=
  l.filter (fun v =>
    (match v.rep.bytes with
     | .ok b => b.length
     | .error _ => 0) == n)

/-- Step 2.8 `smallestContentLength`: sort by the (constant) buggy length
key, serialize the first variant's bytes (an error here is returned), and
keep the variants whose length — a failing serialization counting as `0` —
equals the first variant's length. -/
def smallestContentLength : PipelineFilter := fun variants =>
  match goSortSlice
      (fun vi vj => decide (buggyLengthKey vj < buggyLengthKey vi))
      variants with
  | [] => .error .indexOutOfRange
  | lowest :: rest =>
      match lowest.rep.bytes with
      | .error e => .error e
      | .ok lowestBytes =>
          .ok (lengthEqFilter (lowest :: rest) lowestBytes.length)

/-- The eight filters in pipeline order. -/
def httpdFilters : List PipelineFilter :=
  [bestSourceAndType, bestLanguage, bestLanguageOrder, bestLevel,
   bestCharset, notISO88591, bestEncoding, smallestContentLength]

/-- The `httpd.Choose` filter loop: before each filter, an empty set means
"no choice" (`.ok none`); a filter error propagates; a set of size one stops
the pipeline.  `.ok (some s)` is the set surviving the loop. -/
def applyFilters :
    List PipelineFilter → List RankedRepresentation →
      Except GoErr (Option (List RankedRepresentation))
  | [], variants => .ok (some variants)
  | f :: fs, variants =>
      if variants.isEmpty then .ok none
      else
        match f variants with
        | .error e => .error e
        | .ok v2 => if v2.length == 1 then .ok (some v2) else applyFilters fs v2

/-- The ranking-and-elimination step of `httpd.Choose`: rank one candidate,
dropping it when some dimension has the minimum quality. -/
def httpdRank (o : LangOracle) (a : Accept) (ae : AcceptEncoding)
    (al : AcceptLanguage) (ac : AcceptCharset) (rp : HttpRep) :
    Option RankedRepresentation :=
  if Frac.veq (httpdAcceptQuality rp a) 0 ||
      Frac.veq (httpdAcceptCharsetQuality rp ac) 0 ||
      Frac.veq (httpdAcceptEncodingQuality rp ae) 0 ||
      Frac.veq (httpdAcceptLanguageQuality o rp al).1 0 then none
  else
    some ⟨rp, rp.sourceQuality, httpdAcceptQuality rp a,
      httpdAcceptCharsetQuality rp ac, httpdAcceptEncodingQuality rp ae,
      (httpdAcceptLanguageQuality o rp al).1, 0,
      (httpdAcceptLanguageQuality o rp al).2, false⟩

/-- Model of `httpd.Choose` after header parsing: rank each candidate,
eliminate any candidate with a minimum quality in some dimension, run the
filter pipeline, and return the first surviving variant (indexing an empty
set is the `indexOutOfRange` panic). -/
def httpdChoose (o : LangOracle) (a : Accept) (ae : AcceptEncoding)
    (al : AcceptLanguage) (ac : AcceptCharset)
    (reps : List HttpRep) : Except GoErr (Option HttpRep) :=
  match applyFilters httpdFilters (reps.filterMap (httpdRank o a ae al ac)) with
  | .error e => .error e
  | .ok none => .ok none
  | .ok (some final) =>
      match final with
      | [] => .error .indexOutOfRange
      | v :: _ => .ok (some v.rep)

/-! ## The transparent negotiator (`transparent.Negotiator.Negotiate`)

The chooser and the list-representation constructor are configuration, so the
model takes them as function parameters; the response-writing tail of the two
response helpers is summarised by the outcome constructors. -/

/-- What a transparent negotiation writes when it does not error. -/
inductive TransparentOutcome where
  /-- a `list` response: status 300, `TCN: list` -/
  | listResp
  /-- a `choice` response for the given representation: status 200,
  `TCN: choice`, `Content-Location` -/
  | choiceResp (rep : HttpRep)
deriving DecidableEq, Repr

/-- Model of `header.NewNegotiate`: every directive must be nonempty. -/
def newNegotiate (directives : List String) : Except GoErr (List String) :=
  directives.mapM fun d =>
    if d.data.isEmpty then Except.error GoErr.emptyNegotiateDirective else .ok d

/-- `Negotiate.Contains` for a single directive: case-insensitive
membership. -/
def negotiateContains (n : List String) (dir : String) : Bool :=
  n.any (fun d => lowerStr d == lowerStr dir)

/-- `Negotiate.ContainsRVSA`: some directive parses as a float and equals
the version case-insensitively. -/
def negotiateContainsRVSA (n : List String) (version : String) : Bool :=
  n.any (fun d => (goParseFloat d).isSome && (lowerStr version == lowerStr d))

/-- The neighbor-URI check of `Negotiate` (RFC 2296 §3.5 as implemented):
right-trim `/` from the variant's content location and from the request URL;
both must contain a `/` and the indices of their last `/` must agree. -/
def neighborOk (locStr requestURL : String) : Bool :=
  let neighborURL := trimRightChar locStr '/'
  let resourceURL := trimRightChar requestURL '/'
  let nLast := lastIndexChar neighborURL '/'
  let rLast := lastIndexChar resourceURL '/'
  !(nLast == -1 || rLast == -1 || !(nLast == rLast))

/-- Model of `Negotiator.listResponse`: `NewAlternates(reps[0], reps...)`
(which serializes every representation and panics on an empty list), then the
list representation is built and serialized; errors propagate. -/
def listResponse (listCtor : List HttpRep → HttpRep)
    (reps : List HttpRep) : Except GoErr TransparentOutcome :=
  match reps with
  | [] => .error .indexOutOfRange
  | _ :: _ =>
      match reps.mapM (fun r => r.bytes) with
      | .error e => .error e
      | .ok _ =>
          match (listCtor reps).bytes with
          | .error e => .error e
          | .ok _ => .ok .listResp

/-- Model of `Negotiator.choiceResponse`: `NewAlternates(nil, reps...)`
serializes every representation, then the chosen one; errors propagate. -/
def choiceResponse (reps : List HttpRep) (rep : HttpRep) :
    Except GoErr TransparentOutcome :=
  match reps.mapM (fun r => r.bytes) with
  | .error e => .error e
  | .ok _ =>
      match rep.bytes with
      | .error e => .error e
      | .ok _ => .ok (.choiceResp rep)

/-- The `shouldChoose` disjunction of `Negotiate`: the `Negotiate` header
carries `*`, the RVSA version `1.0`, or `guess-small`. -/
def negotiateShouldChoose (nd : List String) : Bool :=
  negotiateContains nd "*" || negotiateContainsRVSA nd "1.0" ||
    negotiateContains nd "guess-small"

/-- The guess-small comparison of `Negotiate`: serialize the list
representation and the chosen one; the list response is preferred when the
choice is not smaller and their size difference exceeds the threshold. -/
def negotiateGuessSmall (guessThreshold : ℤ)
    (listCtor : List HttpRep → HttpRep)
    (reps : List HttpRep) (rep : HttpRep) : Except GoErr Bool :=
  match (listCtor reps).bytes with
  | .error e => .error e
  | .ok listBytes =>
      match rep.bytes with
      | .error e => .error e
      | .ok choiceBytes =>
          .ok (!decide (choiceBytes.length < listBytes.length) &&
            decide (guessThreshold <
              (((listBytes.length : ℤ) - choiceBytes.length).natAbs : ℤ)))

/-- Model of `transparent.Negotiator.Negotiate`.  `maxSize` and
`guessThreshold` are the configured `maximumVariantListSize` and
`guessSmallThreshold`; `chooser` is the configured RVSA; `listCtor` the list
representation constructor; `negotiateHdr` the raw `Negotiate` header values;
`requestURL` the request URL string. -/
def negotiateTransparent (maxSize guessThreshold : ℤ)
    (chooser : List HttpRep → Except GoErr (Option HttpRep))
    (listCtor : List HttpRep → HttpRep)
    (negotiateHdr : List String) (requestURL : String)
    (reps : List HttpRep) : Except GoErr TransparentOutcome :=
  if (reps.length : ℤ) > maxSize then .error .variantListSizeExceeded
  else
    match newNegotiate negotiateHdr with
    | .error e => .error e
    | .ok nd =>
        if !negotiateShouldChoose nd then listResponse listCtor reps
        else
          match chooser reps with
          | .error e => .error e
          | .ok none => listResponse listCtor reps
          | .ok (some rep) =>
              match (if negotiateContains nd "guess-small" then
                  negotiateGuessSmall guessThreshold listCtor reps rep
                else .ok false) with
              | .error e => .error e
              | .ok true => listResponse listCtor reps
              | .ok false =>
                  if neighborOk rep.contentLocation requestURL then
                    choiceResponse reps rep
                  else listResponse listCtor reps

/-! ## Claim C7: feature-list quality degradation against empty sets -/

theorem fpEvaluate_empty (p : FeaturePredicate) : fpEvaluate p [] [] = false := by
  cases p <;> simp [fpEvaluate, fsContains, fsValues]

theorem elemEvaluate_empty (e : FeatureListElement) :
    elemEvaluate [] [] e = false := by
  cases e with
  | pred p ti fd => simpa [elemEvaluate] using fpEvaluate_empty p
  | bag ps ti fd =>
      simp only [elemEvaluate, bagEvaluate]
      rw [List.any_eq_false]
      intro p _
      simp [fpEvaluate_empty p]

theorem qualityDegradation_empty_fold (fl : FeatureList) :
    qualityDegradation fl [] [] =
      fl.foldl (fun d e => d * elemFalseDegradation e) 1 := by
  unfold qualityDegradation
  apply List.foldl_ext
  intro d e he
  rw [elemEvaluate_empty]
  simp

/-- C7 (amended): evaluated against two empty feature sets, every feature
list's quality degradation is the product of all its elements'
false-degradation factors — absence predicates included, because `absent`
requires its tag to be listed in the unsupported set and therefore evaluates
false against the empty sets. -/
theorem c7_empty_sets_degradation (fl : FeatureList) :
    qualityDegradation fl [] [] =
      (fl.map elemFalseDegradation).foldl (· * ·) 1 := by
  rw [List.foldl_map]
  exact qualityDegradation_empty_fold fl

/-- Whether an element's predicate is an absence predicate `!tag` (the case
the claim singles out). -/
def isAbsentElem : FeatureListElement → Bool
  | .pred (.absent _) _ _ => true
  | _ => false

/-- Modelled from the claim's words: the degradation the claim predicts
against two empty sets — each absence-predicate element contributes its
true-improvement factor, every other element its false-degradation factor. -/
def c7ClaimPredicted (fl : FeatureList) : Frac :=
  (fl.map (fun e =>
    if isAbsentElem e then elemTrueImprovement e
    else elemFalseDegradation e)).foldl (· * ·) 1

/-- C7 (counterexample): for the one-element feature list `!foo` (default
factors: true-improvement 1.0, false-degradation 0.0), the code computes
degradation 0.0, not the 1.0 the claim predicts — `absent` evaluates false,
not true, against two empty sets. -/
theorem c7_counterexample :
    Frac.veq (qualityDegradation [.pred (.absent "foo") none none] [] []) 0 ∧
    Frac.veq (c7ClaimPredicted [.pred (.absent "foo") none none]) 1 ∧
    Frac.veq (qualityDegradation [.pred (.absent "foo") none none] [] [])
      (c7ClaimPredicted [.pred (.absent "foo") none none]) = false := by
  refine ⟨by decide, by decide, by decide⟩

/-! ## Claim C6: `FeatureSet.Add` on an existing tag -/

/-- C6: adding values under an existing tag does not append the provided
values — the source's `range` loop shadows the `values` parameter, so the
entry's own values are appended to themselves (doubling them) and the
provided values are discarded.  A fresh tag is inserted correctly. -/
theorem c6_fsAdd_shadowing_bug :
    fsAdd [("foo", ["a"])] "foo" ["b"] = [("foo", ["a", "a"])] ∧
    fsAdd [] "foo" ["b"] = [("foo", ["b"])] ∧
    fsAdd [("foo", ["a"])] "foo" ["b"] ≠ [("foo", ["a", "b"])] := by
  refine ⟨by decide, by decide, by decide⟩

/-! ## Claim C2: the smallest-content-length filter -/

/-- A 10-byte candidate. -/
def c2repA : HttpRep :=
  ⟨"text/plain", "", [], "", "", [], 1,
    .ok [0, 0, 0, 0, 0, 0, 0, 0, 0, 0]⟩

/-- A 5-byte candidate. -/
def c2repB : HttpRep :=
  ⟨"text/plain", "", [], "", "", [], 1, .ok [1, 1, 1, 1, 1]⟩

/-- A candidate whose serialization fails. -/
def c2repC : HttpRep :=
  ⟨"text/plain", "", [], "", "", [], 1, .error .bytesFailure⟩

/-- Wrap a representation the way `httpd.Choose` would under empty headers. -/
def c2ranked (r : HttpRep) : RankedRepresentation := ⟨r, 1, 1, 1, 1, 1, 0, 0, false⟩

/-- C2: the smallest-content-length step keeps the 10-byte first candidate
instead of the 5-byte one (the sort comparator reads lengths only when
`Bytes()` fails, so nothing is reordered and the incoming first candidate's
length defines the kept set), and a candidate whose serialization fails is
silently dropped with no error propagated. -/
theorem c2_smallest_content_length_bug :
    smallestContentLength [c2ranked c2repA, c2ranked c2repB] =
      .ok [c2ranked c2repA] ∧
    smallestContentLength [c2ranked c2repA, c2ranked c2repC] =
      .ok [c2ranked c2repA] := by
  refine ⟨by decide, by decide⟩

/-! ## Claim C4: media-range precedence -/

/-- C4 (amended): for every successfully parsed media range, the precedence
is the specificity base (2 for concrete type and subtype, 1 for a subtype
wildcard, 0 for a full wildcard) plus the number of ALL parameters of the
range — the `q` parameter included, since `parseMediaRange` never removes it
from the parameter map. -/
theorem c4_precedence_all_params (s : String) (mr : MediaRange)
    (_h : parseMediaRange s = .ok mr) :
    mr.precedence =
      (if mr.t = "*" ∧ mr.subT = "*" then 0
       else if mr.subT = "*" then 1 else 2) + mr.params.length := by
  unfold MediaRange.precedence
  split_ifs <;> omega

/-- C4 (witness): the amended statement applied to the parsed range
`application/json;q=0.5`, whose single parameter is `q` itself. -/
theorem c4_precedence_witness :
    MediaRange.precedence ⟨"application", "json", [("q", "0.5")], ⟨5, 10⟩⟩ =
      (if ("application" : String) = "*" ∧ ("json" : String) = "*" then 0
       else if ("json" : String) = "*" then 1 else 2) + 1 :=
  c4_precedence_all_params "application/json;q=0.5" _ (by decide)

/-- C4 (counterexample): the range parsed from `application/json;q=0.5` has
one parameter (`q`) and no non-`q` parameter; its precedence is `3 = 2 + 1`,
not the `2 = 2 + 0` the claim's non-`q` count predicts. -/
theorem c4_counterexample :
    parseMediaRange "application/json;q=0.5" =
      .ok ⟨"application", "json", [("q", "0.5")], ⟨5, 10⟩⟩ ∧
    MediaRange.precedence ⟨"application", "json", [("q", "0.5")], ⟨5, 10⟩⟩ = 3 ∧
    ((([("q", "0.5")] : List (String × String)).filter
        (fun kv => kv.1 ≠ "q")).length : ℤ) = 0 ∧
    (3 : ℤ) ≠ 2 + 0 := by
  refine ⟨by decide, by decide, by decide, by decide⟩

/-! ## Claim C3: the best-level filter -/

/-- Comparator facts for the level sort: asymmetry. -/
theorem levelLess_asym (a b : RankedRepresentation × ℤ)
    (h : decide (b.2 < a.2) = true) : decide (a.2 < b.2) = false := by
  simp only [decide_eq_true_eq] at h
  simp only [decide_eq_false_iff_not]
  omega

/-- Comparator facts for the level sort: negative transitivity. -/
theorem levelLess_negtrans (a b c : RankedRepresentation × ℤ)
    (h : decide (c.2 < a.2) = true) :
    decide (b.2 < a.2) = true ∨ decide (c.2 < b.2) = true := by
  simp only [decide_eq_true_eq] at h ⊢
  omega

/-- C3 (amended): when `collectHtmlLevels` succeeds, the best-level filter
either passes the set through unchanged (no `text/html` variant with a
`level` parameter) or returns ALL the html-with-level variants — a
permutation of them, ordered so that the first kept variant carries a
maximal level.  It does not keep only the highest-level variants. -/
theorem c3_best_level_keeps_all (variants : List RankedRepresentation)
    (hwl : List (RankedRepresentation × ℤ)) (out : List RankedRepresentation)
    (hc : collectHtmlLevels variants = .ok hwl)
    (hb : bestLevel variants = .ok out) :
    (hwl = [] ∧ out = variants) ∨
    (hwl ≠ [] ∧ List.Perm out (hwl.map Prod.fst) ∧
      ∃ v, out.head? = some v.1 ∧ v ∈ hwl ∧ ∀ w ∈ hwl, w.2 ≤ v.2) := by
  unfold bestLevel at hb
  rw [hc] at hb
  have hb2 : (if hwl.length > 0 then
      Except.ok (List.map Prod.fst
        (goSortSlice (fun a b => decide (b.2 < a.2)) hwl))
    else (Except.ok variants : Except GoErr (List RankedRepresentation)))
      = Except.ok out := hb
  by_cases hw : hwl = []
  · left
    subst hw
    simp only [List.length_nil, gt_iff_lt, lt_self_iff_false, if_false] at hb2
    exact ⟨rfl, (Except.ok.inj hb2).symm⟩
  · right
    have hlen : 0 < hwl.length := List.length_pos.mpr hw
    rw [if_pos (by simpa using hlen)] at hb2
    have hout : out =
        (goSortSlice (fun a b => decide (b.2 < a.2)) hwl).map Prod.fst := by
      exact (Except.ok.inj hb2).symm
    have hperm := goSortSlice_perm (fun a b : RankedRepresentation × ℤ =>
      decide (b.2 < a.2)) hwl
    cases hs : goSortSlice (fun a b : RankedRepresentation × ℤ =>
        decide (b.2 < a.2)) hwl with
    | nil =>
        exact absurd hs (goSortSlice_ne_nil _ _ hw)
    | cons v rest =>
        refine ⟨hw, ?_, v, ?_, ?_, ?_⟩
        · rw [hout]
          exact hperm.map Prod.fst
        · rw [hout, hs]; rfl
        · exact (hs ▸ hperm).mem_iff.mp (List.mem_cons_self v rest)
        · intro w hwmem
          have hwsort : w ∈ v :: rest := (hs ▸ hperm).mem_iff.mpr hwmem
          rcases List.mem_cons.mp hwsort with rfl | hrest
          · omega
          · have := goSortSlice_head_max levelLess_asym levelLess_negtrans hs
              w hrest
            simp only [decide_eq_false_iff_not] at this
            omega

/-- A `text/html;level=1` candidate. -/
def c3v1 : RankedRepresentation :=
  ⟨⟨"text/html;level=1", "", [], "", "", [], 1, .ok []⟩, 1, 1, 1, 1, 1, 0, 0,
    false⟩

/-- A `text/html;level=2` candidate. -/
def c3v2 : RankedRepresentation :=
  ⟨⟨"text/html;level=2", "", [], "", "", [], 1, .ok []⟩, 1, 1, 1, 1, 1, 0, 0,
    false⟩

/-- C3 (witness): the amended statement applied to the two-candidate set
with levels 1 and 2. -/
theorem c3_best_level_witness :
    ([(c3v1, (1 : ℤ)), (c3v2, 2)] = [] ∧
      [c3v2, c3v1] = [c3v1, c3v2]) ∨
    ([(c3v1, (1 : ℤ)), (c3v2, 2)] ≠ [] ∧
      List.Perm [c3v2, c3v1]
        ([(c3v1, (1 : ℤ)), (c3v2, 2)].map Prod.fst) ∧
      ∃ v, ([c3v2, c3v1] : List RankedRepresentation).head? = some v.1 ∧
        v ∈ [(c3v1, (1 : ℤ)), (c3v2, 2)] ∧
        ∀ w ∈ [(c3v1, (1 : ℤ)), (c3v2, 2)], w.2 ≤ v.2) :=
  c3_best_level_keeps_all [c3v1, c3v2] _ _ (by decide) (by decide)

/-- C3 (counterexample): with candidates at levels 1 and 2, the filter
returns BOTH (sorted level-descending), not only the highest-level
candidate: the level-1 candidate stays in the output. -/
theorem c3_counterexample :
    collectHtmlLevels [c3v1, c3v2] = .ok [(c3v1, 1), (c3v2, 2)] ∧
    bestLevel [c3v1, c3v2] = .ok [c3v2, c3v1] ∧
    c3v1 ∈ [c3v2, c3v1] ∧ (1 : ℤ) < 2 := by
  refine ⟨by decide, by decide, by decide, by decide⟩

/-! ## Claim C1: the RVSA/1.0 selection step -/

/-- A language oracle for concrete runs in which no language comparison is
ever consulted. -/
def langOracleNone : LangOracle := ⟨fun _ => false, fun _ _ => false⟩

/-- Modelled from the claim's words (for comparison with `rvsaChoose`): sort
the ranked candidates by overall quality descending and return the FIRST
candidate in that order whose overall quality is positive and which is
definite; no choice only when no candidate qualifies. -/
def rvsaChooseClaimed (o : LangOracle) (a : Accept) (al : AcceptLanguage)
    (ac : AcceptCharset) (af : AcceptFeatures)
    (reps : List HttpRep) : Except GoErr (Option HttpRep) :=
  match reps.mapM (rvsaRank o a al ac af) with
  | .error e => .error e
  | .ok variants =>
      if variants.isEmpty then .ok none
      else
        .ok (((goSortSlice rvsaLess variants).find?
          (fun v => decide (0 < rvsaOverallQuality v) && v.isDefinite)).map
            (fun v => v.rep))

/-- Candidate with a concrete media type: under an absent Accept header its
media-type dimension counts as a wildcard match, so it is not definite. -/
def c1rep1 : HttpRep := ⟨"text/html", "", [], "", "", [], 1, .ok []⟩

/-- Attribute-less candidate with source quality 1/2: every dimension is a
non-wildcard maximum, so it is definite with overall quality 1/2. -/
def c1rep2 : HttpRep := ⟨"", "", [], "", "", [], ⟨1, 2⟩, .ok []⟩

/-- C1 (counterexample): with no request headers and the candidates
`c1rep1` (overall quality 1.0, not definite) and `c1rep2` (overall quality
0.5, definite), the chooser returns no choice — it inspects only the first
candidate of the sorted list — while the claim's reading returns `c1rep2`,
the first candidate in sorted order with positive quality and the definite
flag. -/
theorem c1_counterexample :
    rvsaChoose langOracleNone [] [] [] [] [c1rep1, c1rep2] = .ok none ∧
    rvsaChooseClaimed langOracleNone [] [] [] [] [c1rep1, c1rep2] =
      .ok (some c1rep2) ∧
    (Except.ok none : Except GoErr (Option HttpRep)) ≠ .ok (some c1rep2) := by
  refine ⟨by decide, by decide, by decide⟩

/-- C1 (amended): the chooser examines only the head of the sorted ranked
list: when ranking succeeds and the sorted list starts with `v`, the result
is `v`'s representation if `v` has positive five-decimal-rounded overall
quality and is definite, and no choice otherwise — even when a later sorted
candidate is definite with positive quality. -/
theorem c1_rvsa_first_only (o : LangOracle) (a : Accept) (al : AcceptLanguage)
    (ac : AcceptCharset) (af : AcceptFeatures) (reps : List HttpRep)
    (variants : List RankedRepresentation) (v : RankedRepresentation)
    (rest : List RankedRepresentation)
    (hr : reps.mapM (rvsaRank o a al ac af) = .ok variants)
    (hs : goSortSlice rvsaLess variants = v :: rest) :
    rvsaChoose o a al ac af reps =
      .ok (if 0 < rvsaOverallQuality v ∧ v.isDefinite then some v.rep
           else none) := by
  unfold rvsaChoose
  rw [hr]
  cases variants with
  | nil => exact absurd hs.symm (List.cons_ne_nil v rest)
  | cons hd tl =>
      simp only [List.isEmpty_cons, Bool.false_eq_true, if_false]
      rw [hs]
      show (if 0 < rvsaOverallQuality v ∧ v.isDefinite then
          (Except.ok (some v.rep) : Except GoErr (Option HttpRep))
        else Except.ok none) = _
      split_ifs with h <;> rfl

/-- The ranked representation `rvsaRank` produces for `c1rep2` under empty
headers. -/
def c1ranked2 : RankedRepresentation := ⟨c1rep2, ⟨1, 2⟩, 1, 1, 0, 1, 1, 0, true⟩

/-- C1 (witness): the amended statement applied to the single candidate
`c1rep2`, which is definite with overall quality 1/2 and is chosen. -/
theorem c1_rvsa_first_only_witness :
    rvsaChoose langOracleNone [] [] [] [] [c1rep2] =
      .ok (if 0 < rvsaOverallQuality c1ranked2 ∧ c1ranked2.isDefinite then
          some c1ranked2.rep
        else none) :=
  c1_rvsa_first_only langOracleNone [] [] [] [] [c1rep2] [c1ranked2] c1ranked2
    [] (by decide) (by decide)

/-! ## Claim C8: the Accept preference sort -/

/-- The three-decimal rounding of a quality value, read off as the integer
numerator of the rounded fraction over `1000`. -/
def qvKey (q : Frac) : ℤ := roundHalfAway (q * ⟨1000, 1⟩)

theorem qvRound_three (q : Frac) : qvRound 3 q = ⟨qvKey q, 1000⟩ := by
  unfold qvRound qvKey
  have h3 : ((10 : ℤ) ^ (3 : ℤ).toNat) = 1000 := by decide
  rw [if_neg (by norm_num), h3]

theorem qvEquals_iff (a b : Frac) : qvEquals a b = true ↔ qvKey a = qvKey b := by
  simp [qvEquals, qvRound_three, Frac.mk.injEq]

theorem qvGreaterThan_iff (a b : Frac) :
    qvGreaterThan a b = true ↔ qvKey b < qvKey a := by
  have h : (⟨qvKey b, 1000⟩ : Frac) < ⟨qvKey a, 1000⟩ ↔ qvKey b < qvKey a := by
    show qvKey b * 1000 < qvKey a * 1000 ↔ qvKey b < qvKey a
    omega
  simp [qvGreaterThan, qvRound_three, h]

/-- The comparator of `Accept.MediaRanges`, characterised over the rounded
integer keys and the precedences. -/
theorem acceptLess_iff (f s : MediaRange) :
    acceptLess f s = true ↔
      ((qvKey f.qValue = qvKey s.qValue ∧ s.precedence < f.precedence) ∨
        (qvKey f.qValue ≠ qvKey s.qValue ∧ qvKey s.qValue < qvKey f.qValue)) := by
  unfold acceptLess
  by_cases he : qvEquals f.qValue s.qValue
  · have hk := (qvEquals_iff f.qValue s.qValue).mp he
    simp [he, hk]
  · have hk : ¬ qvKey f.qValue = qvKey s.qValue := fun hc =>
      he ((qvEquals_iff f.qValue s.qValue).mpr hc)
    simp [he, hk, qvGreaterThan_iff]

theorem acceptLess_asym (a b : MediaRange) (h : acceptLess a b = true) :
    acceptLess b a = false := by
  rw [acceptLess_iff] at h
  rw [Bool.eq_false_iff]
  intro hc
  rw [acceptLess_iff] at hc
  omega

theorem acceptLess_negtrans (a b c : MediaRange) (h : acceptLess a c = true) :
    acceptLess a b = true ∨ acceptLess b c = true := by
  rw [acceptLess_iff] at h
  rw [acceptLess_iff, acceptLess_iff]
  omega

/-- The low-quality range `a/b;q=0.1` of the stability counterexample (its
parsed form: the `q` parameter stays in the parameter map). -/
def c8r0 : MediaRange := ⟨"a", "b", [("q", "0.1")], ⟨1, 10⟩⟩

/-- A quality-1 range `a/sub` with no parameters (precedence 2) of the
stability counterexample. -/
def c8mr (sub : String) : MediaRange := ⟨"a", sub, [], 1⟩

/-- An eight-range Accept header: the low-quality range first, then seven
ranges that share quality 1 and precedence 2. -/
def c8accept : Accept :=
  [c8r0, c8mr "c1", c8mr "c2", c8mr "c3", c8mr "c4", c8mr "c5", c8mr "c6",
   c8mr "c7"]

/-- C8 (counterexample): on an eight-element Accept header the preference
sort is NOT stable.  `a/c1` and `a/c6` have equal three-decimal-rounded
quality values and equal precedences, and `a/c1` precedes `a/c6` in the
header, yet `MediaRanges` returns `a/c6` first: Go's `sort.Slice` is an
unstable sort (its gap-6 Shell pass swaps `a/c6` past the five ranges before
it when evicting the low-quality head), and the library does not use
`sort.SliceStable`. -/
theorem c8_counterexample :
    qvEquals (c8mr "c1").qValue (c8mr "c6").qValue = true ∧
    (c8mr "c1").precedence = (c8mr "c6").precedence ∧
    acceptMediaRanges c8accept =
      [c8mr "c6", c8mr "c1", c8mr "c2", c8mr "c3", c8mr "c4", c8mr "c5",
       c8mr "c7", c8r0] := by
  decide

/-- C8 (amended): the preference sort of `MediaRanges` returns a permutation
of the header's ranges that is ordered for the comparator — no later range
compares strictly before an earlier one, where "strictly before" is rounded
quality-value then strict precedence — but it is NOT stable: two ranges with
equal rounded quality value and equal precedence may lose their original
relative order. -/
theorem c8_media_ranges_perm_ordered (a : Accept) :
    List.Perm (acceptMediaRanges a) a ∧
    List.Pairwise (fun f s => acceptLess s f = false) (acceptMediaRanges a) :=
  ⟨goSortSlice_perm acceptLess a,
   goSortSlice_pairwise acceptLess_asym acceptLess_negtrans a⟩

/-! ## Claim C9: a choice response implies the neighbor check -/

/-- `listResponse` never produces a choice outcome. -/
theorem listResponse_ne_choice (listCtor : List HttpRep → HttpRep)
    (reps : List HttpRep) (rep : HttpRep) :
    listResponse listCtor reps ≠ .ok (.choiceResp rep) := by
  unfold listResponse
  cases reps with
  | nil => simp
  | cons h t =>
      cases hm : (h :: t).mapM (fun r => r.bytes) with
      | error e => simp [hm]
      | ok l =>
          cases hb : (listCtor (h :: t)).bytes with
          | error e => simp [hm, hb]
          | ok bs => simp [hm, hb]

/-- A choice outcome of `choiceResponse` carries the representation that was
passed in. -/
theorem choiceResponse_inv (reps : List HttpRep) (r rep : HttpRep)
    (h : choiceResponse reps r = .ok (.choiceResp rep)) : rep = r := by
  unfold choiceResponse at h
  cases hm : reps.mapM (fun x => x.bytes) with
  | error e => rw [hm] at h; exact absurd h (by simp)
  | ok l =>
      rw [hm] at h
      cases hb : r.bytes with
      | error e => rw [hb] at h; exact absurd h (by simp)
      | ok bs =>
          rw [hb] at h
          simp at h
          exact h.symm

/-- C9: the transparent negotiator emits a choice response only for a chosen
variant whose content location passes the neighbor-URI check against the
request URL (right-trim `/` from both, both must contain `/`, and the
indices of their last `/` must agree); whenever the check fails, a list
response is emitted instead. -/
theorem c9_choice_implies_neighbor
    (maxSize guessThreshold : ℤ)
    (chooser : List HttpRep → Except GoErr (Option HttpRep))
    (listCtor : List HttpRep → HttpRep)
    (negotiateHdr : List String) (requestURL : String) (reps : List HttpRep)
    (rep : HttpRep)
    (h : negotiateTransparent maxSize guessThreshold chooser listCtor
        negotiateHdr requestURL reps = .ok (.choiceResp rep)) :
    neighborOk rep.contentLocation requestURL = true := by
  unfold negotiateTransparent at h
  split at h
  · exact absurd h (by simp)
  · split at h
    · exact absurd h (by simp)
    · split at h
      · exact absurd h (listResponse_ne_choice _ _ _)
      · split at h
        · exact absurd h (by simp)
        · exact absurd h (listResponse_ne_choice _ _ _)
        · split at h
          · exact absurd h (by simp)
          · exact absurd h (listResponse_ne_choice _ _ _)
          · split at h
            next hn =>
              rw [choiceResponse_inv _ _ _ h]
              exact hn
            next hn =>
              exact absurd h (listResponse_ne_choice _ _ _)

/-- A representation whose content location is a path-neighbor of the C9
witness request URL. -/
def c9rep : HttpRep := ⟨"", "", [], "", "http://x/other", [], 1, .ok []⟩

/-- The constant list representation of the C9 witness run. -/
def c9list : HttpRep := ⟨"", "", [], "", "", [], 1, .ok []⟩

/-- C9 (witness): a concrete `Negotiate: 1.0` run that does emit a choice
response, whose chosen variant therefore passes the neighbor check. -/
theorem c9_choice_implies_neighbor_witness :
    neighborOk c9rep.contentLocation "http://x/thing" = true :=
  c9_choice_implies_neighbor 10 0 (fun _ => .ok (some c9rep))
    (fun _ => c9list) ["1.0"] "http://x/thing" [c9rep] c9rep (by decide)

/-! ## Claim C10: the filter pipeline preserves nonemptiness -/

theorem qvEquals_refl (q : Frac) : qvEquals q q = true := by
  simp [qvEquals]

/-- A well-behaved pipeline filter: a successful run returns a subset of its
input, nonempty whenever the input was. -/
def goodFilter (f : PipelineFilter) : Prop :=
  ∀ variants out, f variants = .ok out →
    (variants ≠ [] → out ≠ []) ∧ ∀ v ∈ out, v ∈ variants

theorem keepMaxByQv_good (key : RankedRepresentation → Frac) :
    goodFilter (keepMaxByQv key) := by
  intro variants out h
  unfold keepMaxByQv at h
  split at h
  · exact absurd h (by simp)
  · rename_i highest rest hs
    injection h with hout
    constructor
    · intro _ hc
      have hm : highest ∈ (highest :: rest).filter
          (fun v => qvEquals (key v) (key highest)) :=
        List.mem_filter.mpr ⟨List.mem_cons_self _ _, qvEquals_refl _⟩
      rw [hout, hc] at hm
      exact absurd hm (List.not_mem_nil _)
    · intro v hv
      rw [← hout] at hv
      have h3 : v ∈ highest :: rest := List.mem_of_mem_filter hv
      rw [← hs] at h3
      exact (goSortSlice_perm _ variants).subset h3

theorem bestLanguageOrder_good : goodFilter bestLanguageOrder := by
  intro variants out h
  unfold bestLanguageOrder at h
  split at h
  · exact absurd h (by simp)
  · rename_i highest rest hs
    injection h with hout
    constructor
    · intro _ hc
      have hm : highest ∈ (highest :: rest).filter
          (fun v => v.languageOrderScore == highest.languageOrderScore) :=
        List.mem_filter.mpr ⟨List.mem_cons_self _ _, by simp⟩
      rw [hout, hc] at hm
      exact absurd hm (List.not_mem_nil _)
    · intro v hv
      rw [← hout] at hv
      have h3 : v ∈ highest :: rest := List.mem_of_mem_filter hv
      rw [← hs] at h3
      exact (goSortSlice_perm _ variants).subset h3

/-- Every pair `collectHtmlLevels` collects holds a variant of its input. -/
theorem collectHtmlLevels_mem (variants : List RankedRepresentation)
    (hwl : List (RankedRepresentation × ℤ))
    (h : collectHtmlLevels variants = .ok hwl) :
    ∀ p ∈ hwl, p.1 ∈ variants := by
  induction variants generalizing hwl with
  | nil =>
      unfold collectHtmlLevels at h
      injection h with h2
      rw [← h2]
      intro p hp
      exact absurd hp (List.not_mem_nil _)
  | cons v rest ih =>
      unfold collectHtmlLevels at h
      split at h
      · exact absurd h (by simp)
      · split at h
        · split at h
          · exact absurd h (by simp)
          · split at h
            · exact absurd h (by simp)
            · rename_i t ht
              injection h with h2
              rw [← h2]
              intro p hp
              cases List.mem_cons.mp hp with
              | inl hph => rw [hph]; exact List.mem_cons_self _ _
              | inr hpt => exact List.mem_cons_of_mem _ (ih t ht p hpt)
        · intro p hp
          exact List.mem_cons_of_mem _ (ih hwl h p hp)

theorem bestLevel_good : goodFilter bestLevel := by
  intro variants out h
  unfold bestLevel at h
  split at h
  · exact absurd h (by simp)
  · rename_i hwl heq
    split at h
    · rename_i hl
      injection h with hout
      constructor
      · intro _ hc
        rw [← hout] at hc
        have hlen := congrArg List.length hc
        rw [List.length_map, goSortSlice_length] at hlen
        have hlen2 : hwl.length = 0 := by simpa using hlen
        omega
      · intro w hw
        rw [← hout] at hw
        rcases List.mem_map.mp hw with ⟨p, hp, hpw⟩
        have hp2 : p ∈ hwl := (goSortSlice_perm _ hwl).subset hp
        rw [← hpw]
        exact collectHtmlLevels_mem variants hwl heq p hp2
    · injection h with hout
      rw [← hout]
      exact ⟨fun hne => hne, fun v hv => hv⟩

theorem notISO88591_good : goodFilter notISO88591 := by
  intro variants out h
  unfold notISO88591 at h
  split at h
  · rename_i hcond
    injection h with hout
    constructor
    · intro _ hc
      rw [hout, hc] at hcond
      simp at hcond
    · intro v hv
      rw [← hout] at hv
      unfold notISOFilter at hv
      exact List.mem_of_mem_filter hv
  · injection h with hout
    rw [← hout]
    exact ⟨fun hne => hne, fun v hv => hv⟩

theorem smallestContentLength_good : goodFilter smallestContentLength := by
  intro variants out h
  unfold smallestContentLength at h
  split at h
  · exact absurd h (by simp)
  · rename_i lowest rest hs
    split at h
    · exact absurd h (by simp)
    · rename_i lowestBytes hb
      injection h with hout
      constructor
      · intro _ hc
        have hm : lowest ∈ lengthEqFilter (lowest :: rest) lowestBytes.length := by
          unfold lengthEqFilter
          exact List.mem_filter.mpr ⟨List.mem_cons_self _ _, by simp [hb]⟩
        rw [hout, hc] at hm
        exact absurd hm (List.not_mem_nil _)
      · intro v hv
        rw [← hout] at hv
        unfold lengthEqFilter at hv
        have h3 : v ∈ lowest :: rest := List.mem_of_mem_filter hv
        rw [← hs] at h3
        exact (goSortSlice_perm _ variants).subset h3

/-- Each of the eight pipeline filters is well-behaved. -/
theorem httpdFilters_good : ∀ f ∈ httpdFilters, goodFilter f := by
  intro f hf
  simp only [httpdFilters, List.mem_cons, List.not_mem_nil, or_false] at hf
  rcases hf with rfl | rfl | rfl | rfl | rfl | rfl | rfl | rfl
  · exact keepMaxByQv_good _
  · exact keepMaxByQv_good _
  · exact bestLanguageOrder_good
  · exact bestLevel_good
  · exact keepMaxByQv_good _
  · exact notISO88591_good
  · exact keepMaxByQv_good _
  · exact smallestContentLength_good

/-- `keepMaxByQv` never errors on a nonempty set. -/
theorem keepMaxByQv_ne_error (key : RankedRepresentation → Frac)
    (variants : List RankedRepresentation) (hne : variants ≠ []) (e : GoErr) :
    keepMaxByQv key variants ≠ .error e := by
  intro hc
  unfold keepMaxByQv at hc
  split at hc
  · rename_i hs
    exact goSortSlice_ne_nil _ variants hne hs
  · exact absurd hc (by simp)

/-- `bestLanguageOrder` never errors on a nonempty set. -/
theorem bestLanguageOrder_ne_error (variants : List RankedRepresentation)
    (hne : variants ≠ []) (e : GoErr) :
    bestLanguageOrder variants ≠ .error e := by
  intro hc
  unfold bestLanguageOrder at hc
  split at hc
  · rename_i hs
    exact goSortSlice_ne_nil _ variants hne hs
  · exact absurd hc (by simp)

/-- A failing `collectHtmlLevels` fails with a media-type or number-parse
error, never with the index panic. -/
theorem collectHtmlLevels_error (variants : List RankedRepresentation)
    (e : GoErr) (h : collectHtmlLevels variants = .error e) :
    e = .invalidMediaType ∨ e = .numberParse := by
  induction variants with
  | nil =>
      unfold collectHtmlLevels at h
      exact absurd h (by simp)
  | cons v rest ih =>
      unfold collectHtmlLevels at h
      split at h
      · injection h with he
        exact Or.inl he.symm
      · split at h
        · split at h
          · injection h with he
            exact Or.inr he.symm
          · split at h
            · rename_i e2 he2
              injection h with he
              rw [he] at he2
              exact ih he2
            · exact absurd h (by simp)
        · exact ih h

/-- `bestLevel` never fails with the index panic. -/
theorem bestLevel_no_oob (variants : List RankedRepresentation) :
    bestLevel variants ≠ .error .indexOutOfRange := by
  intro hc
  unfold bestLevel at hc
  split at hc
  · rename_i e heq
    injection hc with he
    rcases collectHtmlLevels_error variants e heq with h4 | h4 <;> simp_all
  · split at hc <;> exact absurd hc (by simp)

/-- `notISO88591` never errors. -/
theorem notISO88591_ne_error (variants : List RankedRepresentation)
    (e : GoErr) : notISO88591 variants ≠ .error e := by
  intro hc
  unfold notISO88591 at hc
  split at hc <;> exact absurd hc (by simp)

/-- `smallestContentLength` fails with the index panic only through a
variant's own serialization. -/
theorem smallestContentLength_no_oob (variants : List RankedRepresentation)
    (hne : variants ≠ [])
    (hv : ∀ v ∈ variants, v.rep.bytes ≠ Except.error GoErr.indexOutOfRange) :
    smallestContentLength variants ≠ .error .indexOutOfRange := by
  intro hc
  unfold smallestContentLength at hc
  split at hc
  · rename_i hs
    exact goSortSlice_ne_nil _ variants hne hs
  · rename_i lowest rest hs
    split at hc
    · rename_i e hb
      injection hc with he
      have hlow : lowest ∈ variants := by
        have hm : lowest ∈ goSortSlice
            (fun vi vj => decide (buggyLengthKey vj < buggyLengthKey vi))
            variants := by
          rw [hs]
          exact List.mem_cons_self _ _
        exact (goSortSlice_perm _ variants).subset hm
      exact hv lowest hlow (by rw [hb, he])
    · exact absurd hc (by simp)

/-- No pipeline filter fails with the index panic on a nonempty set whose
variants all serialize without that panic. -/
theorem httpdFilters_no_oob : ∀ f ∈ httpdFilters, ∀ variants,
    variants ≠ [] →
    (∀ v ∈ variants, v.rep.bytes ≠ Except.error GoErr.indexOutOfRange) →
    f variants ≠ .error .indexOutOfRange := by
  intro f hf
  simp only [httpdFilters, List.mem_cons, List.not_mem_nil, or_false] at hf
  rcases hf with rfl | rfl | rfl | rfl | rfl | rfl | rfl | rfl
  · exact fun variants hne _ => keepMaxByQv_ne_error _ variants hne _
  · exact fun variants hne _ => keepMaxByQv_ne_error _ variants hne _
  · exact fun variants hne _ => bestLanguageOrder_ne_error variants hne _
  · exact fun variants _ _ => bestLevel_no_oob variants
  · exact fun variants hne _ => keepMaxByQv_ne_error _ variants hne _
  · exact fun variants _ _ => notISO88591_ne_error variants _
  · exact fun variants hne _ => keepMaxByQv_ne_error _ variants hne _
  · exact fun variants hne hv => smallestContentLength_no_oob variants hne hv

/-- The filter loop of `httpd.Choose`: no index panic, and a surviving set
from a nonempty, panic-free start is a nonempty subset of it. -/
theorem applyFilters_safe (fs : List PipelineFilter) :
    (∀ f ∈ fs, goodFilter f) →
    (∀ f ∈ fs, ∀ variants, variants ≠ [] →
      (∀ v ∈ variants, v.rep.bytes ≠ Except.error GoErr.indexOutOfRange) →
      f variants ≠ .error .indexOutOfRange) →
    ∀ variants,
      (∀ v ∈ variants, v.rep.bytes ≠ Except.error GoErr.indexOutOfRange) →
      applyFilters fs variants ≠ .error .indexOutOfRange ∧
      ∀ out, applyFilters fs variants = .ok (some out) →
        (variants ≠ [] → out ≠ []) ∧ ∀ v ∈ out, v ∈ variants := by
  induction fs with
  | nil =>
      intro _ _ variants _
      constructor
      · intro hc
        have h2 : (Except.ok (some variants) :
            Except GoErr (Option (List RankedRepresentation))) =
            .error .indexOutOfRange := hc
        exact absurd h2 (by simp)
      · intro out hout
        have h2 : (Except.ok (some variants) :
            Except GoErr (Option (List RankedRepresentation))) =
            .ok (some out) := hout
        injection h2 with h3
        injection h3 with h4
        rw [← h4]
        exact ⟨fun hne => hne, fun v hv => hv⟩
  | cons f fs ih =>
      intro hg hn variants hv
      cases variants with
      | nil =>
          have happ : applyFilters (f :: fs) [] =
              (.ok none : Except GoErr (Option (List RankedRepresentation))) :=
            rfl
          constructor
          · rw [happ]
            simp
          · intro out hout
            rw [happ] at hout
            exact absurd hout (by simp)
      | cons x xs =>
          have hne : x :: xs ≠ [] := List.cons_ne_nil x xs
          have h0 : applyFilters (f :: fs) (x :: xs) =
              (match f (x :: xs) with
                | .error e =>
                    (.error e : Except GoErr (Option (List RankedRepresentation)))
                | .ok w =>
                    if w.length == 1 then .ok (some w)
                    else applyFilters fs w) := rfl
          cases hf : f (x :: xs) with
          | error e =>
              have happ : applyFilters (f :: fs) (x :: xs) = .error e := by
                rw [h0, hf]
              constructor
              · rw [happ]
                intro hc
                injection hc with he
                exact hn f (List.mem_cons_self f fs) (x :: xs) hne hv
                  (by rw [hf, he])
              · intro out hout
                rw [happ] at hout
                exact absurd hout (by simp)
          | ok v2 =>
              have hgout := hg f (List.mem_cons_self f fs) (x :: xs) v2 hf
              have hv2 : ∀ v ∈ v2,
                  v.rep.bytes ≠ Except.error GoErr.indexOutOfRange :=
                fun v hm => hv v (hgout.2 v hm)
              by_cases h1 : (v2.length == 1) = true
              · have happ : applyFilters (f :: fs) (x :: xs) = .ok (some v2) := by
                  rw [h0, hf]
                  simp [h1]
                constructor
                · rw [happ]
                  simp
                · intro out hout
                  rw [happ] at hout
                  injection hout with h3
                  injection h3 with h4
                  rw [← h4]
                  exact ⟨fun _ => hgout.1 hne, hgout.2⟩
              · have happ : applyFilters (f :: fs) (x :: xs) =
                    applyFilters fs v2 := by
                  rw [h0, hf]
                  simp [h1]
                have ihr := ih (fun g hgm => hg g (List.mem_cons_of_mem f hgm))
                  (fun g hgm => hn g (List.mem_cons_of_mem f hgm)) v2 hv2
                constructor
                · rw [happ]
                  exact ihr.1
                · intro out hout
                  rw [happ] at hout
                  have h5 := ihr.2 out hout
                  exact ⟨fun _ => h5.1 (hgout.1 hne),
                    fun v hm => hgout.2 v (h5.2 v hm)⟩

/-- A ranked representation built by `httpdRank` carries the candidate it
ranks. -/
theorem httpdRank_rep (o : LangOracle) (a : Accept) (ae : AcceptEncoding)
    (al : AcceptLanguage) (ac : AcceptCharset) (rp : HttpRep)
    (v : RankedRepresentation) (h : httpdRank o a ae al ac rp = some v) :
    v.rep = rp := by
  unfold httpdRank at h
  split at h
  · exact absurd h (by simp)
  · injection h with h2
    exact (congrArg RankedRepresentation.rep h2).symm ▸ rfl

/-- C10: each of the eight Apache-httpd pipeline filters, applied to a
nonempty candidate set and returning without error, returns a nonempty set;
consequently the final `variants.First()` of `httpd.Choose` never indexes an
empty slice — `httpdChoose` never fails with the index-out-of-range panic
when every candidate's own serialization is free of that panic. -/
theorem c10_filters_preserve_nonempty :
    (∀ f ∈ httpdFilters, ∀ variants out, variants ≠ [] →
        f variants = .ok out → out ≠ []) ∧
    ∀ (o : LangOracle) (a : Accept) (ae : AcceptEncoding)
      (al : AcceptLanguage) (ac : AcceptCharset) (reps : List HttpRep),
      (∀ r ∈ reps, r.bytes ≠ Except.error GoErr.indexOutOfRange) →
      httpdChoose o a ae al ac reps ≠ .error .indexOutOfRange := by
  constructor
  · intro f hf variants out hne hout
    exact (httpdFilters_good f hf variants out hout).1 hne
  · intro o a ae al ac reps hb hc
    unfold httpdChoose at hc
    have hvb : ∀ v ∈ reps.filterMap (httpdRank o a ae al ac),
        v.rep.bytes ≠ Except.error GoErr.indexOutOfRange := by
      intro v hm
      rcases List.mem_filterMap.mp hm with ⟨r, hr, hrank⟩
      rw [httpdRank_rep o a ae al ac r v hrank]
      exact hb r hr
    have hmain := applyFilters_safe httpdFilters httpdFilters_good
      httpdFilters_no_oob (reps.filterMap (httpdRank o a ae al ac)) hvb
    split at hc
    · rename_i e happ
      injection hc with he
      exact hmain.1 (by rw [happ, he])
    · simp at hc
    · rename_i final happ
      split at hc
      · by_cases hvs : reps.filterMap (httpdRank o a ae al ac) = []
        · rw [hvs] at happ
          have h0 : applyFilters httpdFilters ([] : List RankedRepresentation) =
              (.ok none : Except GoErr (Option (List RankedRepresentation))) :=
            rfl
          rw [h0] at happ
          exact absurd happ (by simp)
        · exact ((hmain.2 [] happ).1 hvs) rfl
      · simp at hc

/-- A neutral candidate for the C10 witness run. -/
def c10rep : HttpRep := ⟨"", "", [], "", "", [], 1, .ok []⟩

/-- The ranked form of `c10rep` under empty request headers. -/
def c10v : RankedRepresentation := ⟨c10rep, 1, 1, 1, 1, 1, 0, 0, false⟩

/-- C10 (witness): the nonemptiness part applied to the `bestLanguage`
filter on a one-variant set, and the no-panic part applied to a concrete
one-candidate run. -/
theorem c10_filters_preserve_nonempty_witness :
    ([c10v] : List RankedRepresentation) ≠ [] ∧
    httpdChoose langOracleNone [] [] [] [] [c10rep] ≠
      .error .indexOutOfRange :=
  ⟨c10_filters_preserve_nonempty.1 bestLanguage
      (by unfold httpdFilters
          exact List.mem_cons_of_mem _ (List.mem_cons_self _ _))
      [c10v] [c10v] (by decide) (by decide),
   c10_filters_preserve_nonempty.2 langOracleNone [] [] [] [] [c10rep]
      (by decide)⟩

/-! ## Claim C5: the content-coding range round trip -/

theorem data_append (a b : String) : (a ++ b).data = a.data ++ b.data := rfl

theorem digitCh_toNat (x : ℕ) : (digitCh x).toNat = 48 + x % 10 := by
  have h : x % 10 < 10 := Nat.mod_lt x (by norm_num)
  unfold digitCh
  generalize hk : x % 10 = k at h ⊢
  interval_cases k <;> decide

theorem digitCh_isDigit (x : ℕ) : (digitCh x).isDigit = true := by
  have h : x % 10 < 10 := Nat.mod_lt x (by norm_num)
  unfold digitCh
  generalize hk : x % 10 = k at h ⊢
  interval_cases k <;> decide

/-- The three formatted fractional digits read back as `n % 1000`. -/
theorem digitsToNat_fmt (n : ℕ) :
    digitsToNat [digitCh (n / 100), digitCh (n / 10), digitCh n] = n % 1000 := by
  unfold digitsToNat
  simp only [List.foldl, digitCh_toNat]
  omega

theorem takeWhile_append_all {p : Char → Bool} :
    ∀ (l1 l2 : List Char), (∀ c ∈ l1, p c = true) →
      (l1 ++ l2).takeWhile p = l1 ++ l2.takeWhile p := by
  intro l1
  induction l1 with
  | nil => intro l2 _; rfl
  | cons c t ih =>
      intro l2 h
      have hc : p c = true := h c (List.mem_cons_self _ _)
      simp only [List.cons_append, List.takeWhile_cons, hc, if_true]
      rw [ih l2 (fun d hd => h d (List.mem_cons_of_mem _ hd))]

/-- `roundHalfEven` on an exact multiple of the denominator. -/
theorem roundHalfEven_mul (k b : ℤ) (hb : 0 < b) :
    roundHalfEven ⟨k * b, b⟩ = k := by
  show (if 2 * (k * b - (k * b).ediv b * b) < b then (k * b).ediv b
    else if b < 2 * (k * b - (k * b).ediv b * b) then (k * b).ediv b + 1
    else if ((k * b).ediv b).emod 2 = 0 then (k * b).ediv b
    else (k * b).ediv b + 1) = k
  have hdiv : (k * b).ediv b = k := Int.mul_ediv_cancel k (ne_of_gt hb)
  rw [hdiv]
  have hz : k * b - k * b = 0 := by ring
  rw [hz]
  rw [if_pos (by omega)]

/-- `goParseFloat` on the empty string fails. -/
theorem goParseFloat_nil : goParseFloat (String.mk []) = none := rfl

/-- `goParseFloat` on a dot followed by a digit run. -/
theorem goParseFloat_dot (fr : List Char) (h1 : fr ≠ [])
    (h2 : fr.all Char.isDigit = true) :
    goParseFloat (String.mk ('.' :: fr)) =
      some ⟨(digitsToNat fr : ℤ), (10 : ℤ) ^ fr.length⟩ := by
  show (if fr.all Char.isDigit ∧ (([] : List Char) ≠ [] ∨ fr ≠ []) then
      some ((⟨1, 1⟩ : Frac) * (⟨(digitsToNat ([] : List Char) : ℤ), 1⟩ +
        ⟨(digitsToNat fr : ℤ), (10 : ℤ) ^ fr.length⟩))
    else none) = some ⟨(digitsToNat fr : ℤ), (10 : ℤ) ^ fr.length⟩
  rw [if_pos ⟨h2, Or.inr h1⟩]
  congr 1
  show (⟨1 * ((digitsToNat ([] : List Char) : ℤ) * (10 : ℤ) ^ fr.length +
      (digitsToNat fr : ℤ) * 1), 1 * (1 * (10 : ℤ) ^ fr.length)⟩ : Frac) =
    ⟨(digitsToNat fr : ℤ), (10 : ℤ) ^ fr.length⟩
  rw [Frac.mk.injEq]
  constructor
  · norm_num [digitsToNat]
  · ring

/-- Every valid content coding is alphanumeric-dash, or the wildcard. -/
theorem coding_props (g : String) (hc : contentCodings.contains g = true) :
    (g.data ≠ [] ∧ ∀ ch ∈ g.data, isAlnumDash ch = true) ∨ g = "*" := by
  have hmem : g ∈ contentCodings := by simpa using hc
  fin_cases hmem <;> first
    | exact Or.inl (by decide)
    | exact Or.inr (by decide)

/-- The regex q-clause accepts `q=d.ddd`. -/
theorem rangeRegexQBody_eval (d : Char) (hd : d.isDigit = true)
    (ds : List Char) (h1 : ds ≠ []) (h2 : ds.length ≤ 3)
    (h3 : ds.all Char.isDigit = true) :
    rangeRegexQBody ('q' :: '=' :: d :: '.' :: ds) = some (d, some ds) := by
  show (if d.isDigit then
      (if ds ≠ [] ∧ ds.length ≤ 3 ∧ ds.all Char.isDigit then
        some (d, some ds)
      else none)
    else none : Option (Char × Option (List Char))) = some (d, some ds)
  rw [if_pos hd, if_pos ⟨h1, h2, h3⟩]

/-- The regex recognizes `coding;q=d.ddd` for a valid coding shape. -/
theorem rangeRegexMatch_fmt (g : String)
    (hg : (g.data ≠ [] ∧ ∀ ch ∈ g.data, isAlnumDash ch = true) ∨ g = "*")
    (d : Char) (hd : d.isDigit = true) (ds : List Char) (h1 : ds ≠ [])
    (h2 : ds.length ≤ 3) (h3 : ds.all Char.isDigit = true) :
    rangeRegexMatch (g ++ ";q=" ++ String.mk (d :: '.' :: ds)) =
      some (g, some (d, some ds)) := by
  have hdata : (g ++ ";q=" ++ String.mk (d :: '.' :: ds)).data =
      g.data ++ (';' :: 'q' :: '=' :: d :: '.' :: ds) := by
    rw [data_append, data_append]
    rw [List.append_assoc]
    rfl
  have hq : rangeRegexQBody
      (eatOneRegexSpace ('q' :: '=' :: d :: '.' :: ds)) =
      some (d, some ds) := by
    show rangeRegexQBody
      (if isRegexSpace 'q' then '=' :: d :: '.' :: ds
       else 'q' :: '=' :: d :: '.' :: ds) = some (d, some ds)
    rw [if_neg (by decide)]
    exact rangeRegexQBody_eval d hd ds h1 h2 h3
  rcases hg with ⟨hne, hall⟩ | hstar
  · have hg1 : rangeRegexGroup1 (g.data ++ (';' :: 'q' :: '=' :: d :: '.' :: ds)) =
        some (g.data, ';' :: 'q' :: '=' :: d :: '.' :: ds) := by
      have ht : (g.data ++ (';' :: 'q' :: '=' :: d :: '.' :: ds)).takeWhile
          isAlnumDash = g.data := by
        rw [takeWhile_append_all g.data _ hall]
        rw [show (';' :: 'q' :: '=' :: d :: '.' :: ds).takeWhile
          isAlnumDash = [] from rfl]
        exact List.append_nil g.data
      unfold rangeRegexGroup1
      rw [ht]
      rw [if_pos hne]
      rw [List.drop_left]
    unfold rangeRegexMatch
    rw [hdata, hg1]
    show (match rangeRegexQBody (eatOneRegexSpace ('q' :: '=' :: d :: '.' :: ds)) with
      | none => (none : Option (String × Option (Char × Option (List Char))))
      | some q => some (String.mk g.data, some q)) = some (g, some (d, some ds))
    rw [hq]
  · subst hstar
    have hg1 : rangeRegexGroup1
        (("*" : String).data ++ (';' :: 'q' :: '=' :: d :: '.' :: ds)) =
        some (['*'], ';' :: 'q' :: '=' :: d :: '.' :: ds) := by
      show rangeRegexGroup1 ('*' :: ';' :: 'q' :: '=' :: d :: '.' :: ds) =
        some (['*'], ';' :: 'q' :: '=' :: d :: '.' :: ds)
      unfold rangeRegexGroup1
      rw [show ('*' :: ';' :: 'q' :: '=' :: d :: '.' :: ds).takeWhile
          isAlnumDash = [] from rfl]
      rw [if_neg (by simp)]
      rfl
    unfold rangeRegexMatch
    rw [hdata, hg1]
    show (match rangeRegexQBody (eatOneRegexSpace ('q' :: '=' :: d :: '.' :: ds)) with
      | none => (none : Option (String × Option (Char × Option (List Char))))
      | some q => some (String.mk ['*'], some q)) =
      some ("*", some (d, some ds))
    rw [hq]

theorem frac_lt_def (a b : Frac) : a < b ↔ a.num * b.den < b.num * a.den :=
  Iff.rfl

/-- Reparsing the canonical form `coding;q=d.ddd` of a formatted quality
value whose three-decimal rendering is `n/1000` yields the quality
`(n % 1000) / 1000`: the integer digit is dropped by the group-4 read. -/
theorem reparse_fmt (coding : String)
    (hc : contentCodings.contains coding = true) (q : Frac) (n : ℕ)
    (hn : roundHalfEven (q * ⟨1000, 1⟩) = (n : ℤ)) :
    newContentCodingRange (contentCodingRangeFmt ⟨coding, q⟩) =
      .ok ⟨coding, ⟨((n % 1000 : ℕ) : ℤ), 1000⟩⟩ := by
  have hfmt : contentCodingRangeFmt ⟨coding, q⟩ =
      coding ++ ";q=" ++ String.mk (digitCh (n / 1000) :: '.' ::
        [digitCh (n / 100), digitCh (n / 10), digitCh n]) := by
    show coding ++ ";q=" ++ String.mk
        [digitCh ((roundHalfEven (q * ⟨1000, 1⟩)).toNat / 1000), '.',
         digitCh ((roundHalfEven (q * ⟨1000, 1⟩)).toNat / 100),
         digitCh ((roundHalfEven (q * ⟨1000, 1⟩)).toNat / 10),
         digitCh (roundHalfEven (q * ⟨1000, 1⟩)).toNat] = _
    rw [hn]
    rfl
  rw [hfmt]
  have hmatch := rangeRegexMatch_fmt coding (coding_props coding hc)
    (digitCh (n / 1000)) (digitCh_isDigit _)
    [digitCh (n / 100), digitCh (n / 10), digitCh n]
    (by simp) (by simp) (by simp [digitCh_isDigit])
  have hemp : (coding ++ ";q=" ++ String.mk (digitCh (n / 1000) :: '.' ::
      [digitCh (n / 100), digitCh (n / 10), digitCh n])).data.isEmpty =
      false := by
    rw [data_append]
    cases hcase : (coding ++ ";q=").data with
    | nil => rfl
    | cons c t => rfl
  unfold newContentCodingRange
  rw [hmatch, hemp]
  rw [if_neg (by simp)]
  show (if contentCodings.contains coding then
      (match newQualityValue ((goParseFloat (String.mk ('.' ::
          [digitCh (n / 100), digitCh (n / 10), digitCh n]))).getD 0) with
        | .error e => (.error e : Except GoErr ContentCodingRange)
        | .ok qv => .ok ⟨coding, qv⟩)
    else .error .invalidContentCodingRange) =
    .ok ⟨coding, ⟨((n % 1000 : ℕ) : ℤ), 1000⟩⟩
  rw [if_pos hc]
  rw [goParseFloat_dot _ (by simp) (by simp [digitCh_isDigit])]
  rw [Option.getD_some]
  rw [digitsToNat_fmt]
  rw [show ([digitCh (n / 100), digitCh (n / 10), digitCh n] :
    List Char).length = 3 from rfl]
  rw [show ((10 : ℤ) ^ (3 : ℕ)) = 1000 by norm_num]
  have hq : newQualityValue ⟨((n % 1000 : ℕ) : ℤ), 1000⟩ =
      .ok ⟨((n % 1000 : ℕ) : ℤ), 1000⟩ := by
    unfold newQualityValue
    rw [if_neg ?_]
    intro hcon
    rcases hcon with hlt | hgt
    · have h2 : ((n % 1000 : ℕ) : ℤ) * 1 < 0 * 1000 := hlt
      omega
    · have h2 : 1 * 1000 < ((n % 1000 : ℕ) : ℤ) * 1 := hgt
      omega
  rw [hq]

/-- The q-clause only accepts 1–3 fractional digits. -/
theorem rangeRegexQBody_inv (r2 : List Char) (d : Char) (fr : List Char)
    (h : rangeRegexQBody r2 = some (d, some fr)) :
    fr ≠ [] ∧ fr.length ≤ 3 ∧ fr.all Char.isDigit = true := by
  unfold rangeRegexQBody at h
  split at h
  · split at h
    · split at h
      · exact absurd h (by simp)
      · split at h
        · rename_i hguard
          injection h with hp
          injection hp with hd2 hfr2
          injection hfr2 with hfr3
          rw [← hfr3]
          exact ⟨hguard.1, hguard.2.1, hguard.2.2⟩
        · exact absurd h (by simp)
      · exact absurd h (by simp)
    · exact absurd h (by simp)
  · exact absurd h (by simp)

/-- A full regex match with a fractional part carries 1–3 digits. -/
theorem rangeRegexMatch_fr (s : String) (g1 : String) (d : Char)
    (fr : List Char)
    (h : rangeRegexMatch s = some (g1, some (d, some fr))) :
    fr ≠ [] ∧ fr.length ≤ 3 ∧ fr.all Char.isDigit = true := by
  unfold rangeRegexMatch at h
  split at h
  · exact absurd h (by simp)
  · split at h
    · exact absurd h (by simp)
    · split at h
      · exact absurd h (by simp)
      · rename_i qq hq
        injection h with hp
        injection hp with hpl hpr
        injection hpr with hq2
        rw [hq2] at hq
        exact rangeRegexQBody_inv _ d fr hq
    · exact absurd h (by simp)

/-- Inversion of `NewContentCodingRange`: a successfully parsed range has a
valid coding and a quality that is exactly `1` (no q-clause), exactly `0`
(integer-only q-clause, whose fraction-only read fails and is ignored), or a
1–3 digit fraction `m / 10^len`. -/
theorem newContentCodingRange_inv (s : String) (c : ContentCodingRange)
    (h : newContentCodingRange s = .ok c) :
    contentCodings.contains c.coding = true ∧
    (c.qValue = (1 : Frac) ∨ c.qValue = (0 : Frac) ∨
      ∃ (m : ℤ) (len : ℕ), 1 ≤ len ∧ len ≤ 3 ∧ 0 ≤ m ∧ m ≤ 10 ^ len ∧
        c.qValue = ⟨m, (10 : ℤ) ^ len⟩) := by
  unfold newContentCodingRange at h
  split at h
  · exact absurd h (by simp)
  · split at h
    · exact absurd h (by simp)
    · rename_i g1 qopt hreg
      split at h
      · rename_i hcont
        split at h
        · injection h with h2
          rw [← h2]
          exact ⟨hcont, Or.inl rfl⟩
        · rename_i w fro
          split at h
          · exact absurd h (by simp)
          · rename_i qv hnq
            injection h with h2
            rw [← h2]
            refine ⟨hcont, ?_⟩
            cases fro with
            | none =>
                rw [show ((goParseFloat (String.mk (ccrGroup4 none))).getD 0 :
                  Frac) = (0 : Frac) from rfl] at hnq
                rw [show newQualityValue (0 : Frac) = .ok (0 : Frac)
                  from rfl] at hnq
                injection hnq with h3
                exact Or.inr (Or.inl h3.symm)
            | some fr =>
                have hfr := rangeRegexMatch_fr s g1 w fr hreg
                rw [show (String.mk (ccrGroup4 (some fr))) =
                  String.mk ('.' :: fr) from rfl] at hnq
                rw [goParseFloat_dot fr hfr.1 hfr.2.2] at hnq
                rw [Option.getD_some] at hnq
                unfold newQualityValue at hnq
                split at hnq
                · exact absurd hnq (by simp)
                · rename_i hbound
                  injection hnq with h4
                  refine Or.inr (Or.inr ⟨(digitsToNat fr : ℤ), fr.length,
                    ?_, hfr.2.1, Int.natCast_nonneg _, ?_, h4.symm⟩)
                  · cases hfrc : fr with
                    | nil => exact absurd hfrc hfr.1
                    | cons a t => simp
                  · have hgt : ¬((1 : Frac) <
                        ⟨(digitsToNat fr : ℤ), (10 : ℤ) ^ fr.length⟩) :=
                      fun hcon => hbound (Or.inr hcon)
                    have hgt2 : ¬((1 : ℤ) * (10 : ℤ) ^ fr.length <
                        (digitsToNat fr : ℤ) * 1) := hgt
                    omega
      · exact absurd h (by simp)

/-- C5 (amended): reparsing the canonical output `c.String()` of a
successfully parsed content-coding range `c` succeeds and preserves the
coding token, but NOT the quality: the reparse reads only regex group 4
(the fractional part), so a range whose quality value is `1` — in
particular every range parsed without a q-clause — reparses with quality
`0`; only ranges whose quality is strictly below `1` round-trip
value-preservingly. -/
theorem c5_content_coding_roundtrip (s : String) (c : ContentCodingRange)
    (h : newContentCodingRange s = .ok c) :
    ∃ c', newContentCodingRange (contentCodingRangeFmt c) = .ok c' ∧
      c'.coding = c.coding ∧
      (if Frac.veq c.qValue 1 then Frac.veq c'.qValue 0
       else Frac.veq c'.qValue c.qValue) = true := by
  obtain ⟨hcont, hq⟩ := newContentCodingRange_inv s c h
  obtain ⟨cd, cq⟩ := c
  have hcont' : contentCodings.contains cd = true := hcont
  rcases hq with h1 | h0 | ⟨m, len, hl1, hl3, hm0, hmle, heq⟩
  · have h1' : cq = 1 := h1
    subst h1'
    have hr := reparse_fmt cd hcont' 1 1000 (by decide)
    refine ⟨_, hr, rfl, ?_⟩
    show (if Frac.veq (1 : Frac) 1 then
        Frac.veq ⟨((1000 % 1000 : ℕ) : ℤ), 1000⟩ 0
      else Frac.veq ⟨((1000 % 1000 : ℕ) : ℤ), 1000⟩ (1 : Frac)) = true
    decide
  · have h0' : cq = 0 := h0
    subst h0'
    have hr := reparse_fmt cd hcont' 0 0 (by decide)
    refine ⟨_, hr, rfl, ?_⟩
    show (if Frac.veq (0 : Frac) 1 then
        Frac.veq ⟨((0 % 1000 : ℕ) : ℤ), 1000⟩ 0
      else Frac.veq ⟨((0 % 1000 : ℕ) : ℤ), 1000⟩ (0 : Frac)) = true
    decide
  · have heq' : cq = ⟨m, (10 : ℤ) ^ len⟩ := heq
    subst heq'
    interval_cases len
    · norm_num at hmle
      have hmul : ((⟨m, (10 : ℤ) ^ 1⟩ : Frac) * ⟨1000, 1⟩) =
          ⟨(m * 100) * 10, 10⟩ := by
        show (⟨m * 1000, (10 : ℤ) ^ 1 * 1⟩ : Frac) = ⟨(m * 100) * 10, 10⟩
        rw [Frac.mk.injEq]
        constructor <;> ring
      have hn : roundHalfEven ((⟨m, (10 : ℤ) ^ 1⟩ : Frac) * ⟨1000, 1⟩) =
          ((m.toNat * 100 : ℕ) : ℤ) := by
        rw [hmul, roundHalfEven_mul (m * 100) 10 (by norm_num)]
        omega
      have hr := reparse_fmt cd hcont' ⟨m, (10 : ℤ) ^ 1⟩ (m.toNat * 100) hn
      refine ⟨_, hr, rfl, ?_⟩
      by_cases hm10 : m = 10
      · subst hm10
        show (if Frac.veq ⟨10, (10 : ℤ) ^ 1⟩ 1 then
            Frac.veq ⟨((Int.toNat 10 * 100 % 1000 : ℕ) : ℤ), 1000⟩ 0
          else Frac.veq ⟨((Int.toNat 10 * 100 % 1000 : ℕ) : ℤ), 1000⟩
            ⟨10, (10 : ℤ) ^ 1⟩) = true
        decide
      · have hcond : Frac.veq ⟨m, (10 : ℤ) ^ 1⟩ 1 = false := by
          show (m * (1 : ℤ) == (1 : ℤ) * (10 : ℤ) ^ 1) = false
          rw [beq_eq_false_iff_ne]
          intro hcon
          norm_num at hcon
          exact hm10 hcon
        show (if Frac.veq ⟨m, (10 : ℤ) ^ 1⟩ 1 then
            Frac.veq ⟨((m.toNat * 100 % 1000 : ℕ) : ℤ), 1000⟩ 0
          else Frac.veq ⟨((m.toNat * 100 % 1000 : ℕ) : ℤ), 1000⟩
            ⟨m, (10 : ℤ) ^ 1⟩) = true
        rw [hcond, if_neg Bool.false_ne_true]
        show ((((m.toNat * 100 % 1000 : ℕ) : ℤ)) * (10 : ℤ) == m * 1000) = true
        rw [beq_iff_eq]
        omega
    · norm_num at hmle
      have hmul : ((⟨m, (10 : ℤ) ^ 2⟩ : Frac) * ⟨1000, 1⟩) =
          ⟨(m * 10) * 100, 100⟩ := by
        show (⟨m * 1000, (10 : ℤ) ^ 2 * 1⟩ : Frac) = ⟨(m * 10) * 100, 100⟩
        rw [Frac.mk.injEq]
        constructor <;> ring
      have hn : roundHalfEven ((⟨m, (10 : ℤ) ^ 2⟩ : Frac) * ⟨1000, 1⟩) =
          ((m.toNat * 10 : ℕ) : ℤ) := by
        rw [hmul, roundHalfEven_mul (m * 10) 100 (by norm_num)]
        omega
      have hr := reparse_fmt cd hcont' ⟨m, (10 : ℤ) ^ 2⟩ (m.toNat * 10) hn
      refine ⟨_, hr, rfl, ?_⟩
      by_cases hm100 : m = 100
      · subst hm100
        show (if Frac.veq ⟨100, (10 : ℤ) ^ 2⟩ 1 then
            Frac.veq ⟨((Int.toNat 100 * 10 % 1000 : ℕ) : ℤ), 1000⟩ 0
          else Frac.veq ⟨((Int.toNat 100 * 10 % 1000 : ℕ) : ℤ), 1000⟩
            ⟨100, (10 : ℤ) ^ 2⟩) = true
        decide
      · have hcond : Frac.veq ⟨m, (10 : ℤ) ^ 2⟩ 1 = false := by
          show (m * (1 : ℤ) == (1 : ℤ) * (10 : ℤ) ^ 2) = false
          rw [beq_eq_false_iff_ne]
          intro hcon
          norm_num at hcon
          exact hm100 hcon
        show (if Frac.veq ⟨m, (10 : ℤ) ^ 2⟩ 1 then
            Frac.veq ⟨((m.toNat * 10 % 1000 : ℕ) : ℤ), 1000⟩ 0
          else Frac.veq ⟨((m.toNat * 10 % 1000 : ℕ) : ℤ), 1000⟩
            ⟨m, (10 : ℤ) ^ 2⟩) = true
        rw [hcond, if_neg Bool.false_ne_true]
        show ((((m.toNat * 10 % 1000 : ℕ) : ℤ)) * (100 : ℤ) == m * 1000) = true
        rw [beq_iff_eq]
        omega
    · norm_num at hmle
      have hmul : ((⟨m, (10 : ℤ) ^ 3⟩ : Frac) * ⟨1000, 1⟩) =
          ⟨m * 1000, 1000⟩ := by
        show (⟨m * 1000, (10 : ℤ) ^ 3 * 1⟩ : Frac) = ⟨m * 1000, 1000⟩
        rw [Frac.mk.injEq]
        constructor <;> ring
      have hn : roundHalfEven ((⟨m, (10 : ℤ) ^ 3⟩ : Frac) * ⟨1000, 1⟩) =
          ((m.toNat : ℕ) : ℤ) := by
        rw [hmul, roundHalfEven_mul m 1000 (by norm_num)]
        omega
      have hr := reparse_fmt cd hcont' ⟨m, (10 : ℤ) ^ 3⟩ m.toNat hn
      refine ⟨_, hr, rfl, ?_⟩
      by_cases hm1000 : m = 1000
      · subst hm1000
        show (if Frac.veq ⟨1000, (10 : ℤ) ^ 3⟩ 1 then
            Frac.veq ⟨((Int.toNat 1000 % 1000 : ℕ) : ℤ), 1000⟩ 0
          else Frac.veq ⟨((Int.toNat 1000 % 1000 : ℕ) : ℤ), 1000⟩
            ⟨1000, (10 : ℤ) ^ 3⟩) = true
        decide
      · have hcond : Frac.veq ⟨m, (10 : ℤ) ^ 3⟩ 1 = false := by
          show (m * (1 : ℤ) == (1 : ℤ) * (10 : ℤ) ^ 3) = false
          rw [beq_eq_false_iff_ne]
          intro hcon
          norm_num at hcon
          exact hm1000 hcon
        show (if Frac.veq ⟨m, (10 : ℤ) ^ 3⟩ 1 then
            Frac.veq ⟨((m.toNat % 1000 : ℕ) : ℤ), 1000⟩ 0
          else Frac.veq ⟨((m.toNat % 1000 : ℕ) : ℤ), 1000⟩
            ⟨m, (10 : ℤ) ^ 3⟩) = true
        rw [hcond, if_neg Bool.false_ne_true]
        show ((((m.toNat % 1000 : ℕ) : ℤ)) * (1000 : ℤ) == m * 1000) = true
        rw [beq_iff_eq]
        omega

/-- C5 (witness): the amended statement applied to `gzip;q=0.5`, whose
parsed quality `1/2` is below `1` and survives the round trip. -/
theorem c5_content_coding_roundtrip_witness :
    ∃ c', newContentCodingRange
        (contentCodingRangeFmt ⟨"gzip", ⟨5, 10⟩⟩) = .ok c' ∧
      c'.coding = (⟨"gzip", ⟨5, 10⟩⟩ : ContentCodingRange).coding ∧
      (if Frac.veq (⟨"gzip", ⟨5, 10⟩⟩ : ContentCodingRange).qValue 1 then
          Frac.veq c'.qValue 0
        else Frac.veq c'.qValue
          (⟨"gzip", ⟨5, 10⟩⟩ : ContentCodingRange).qValue) = true :=
  c5_content_coding_roundtrip "gzip;q=0.5" ⟨"gzip", ⟨5, 10⟩⟩ (by decide)

/-- C5 (counterexample): the range parsed from `gzip` has quality `1` and
canonical form `gzip;q=1.000`; reparsing that canonical form yields quality
`0`, not a range with the same three-decimal-rounded quality value. -/
theorem c5_counterexample :
    newContentCodingRange "gzip" = .ok ⟨"gzip", 1⟩ ∧
    contentCodingRangeFmt ⟨"gzip", 1⟩ = "gzip;q=1.000" ∧
    newContentCodingRange "gzip;q=1.000" = .ok ⟨"gzip", ⟨0, 1000⟩⟩ ∧
    qvEquals ⟨0, 1000⟩ 1 = false := by
  refine ⟨by decide, by decide, by decide, by decide⟩
